import Mathlib

/-!
Verification of `docs/tools/update_semantic_rules.py`.

Python strings are modelled as `List Char` (`Str`); each helper below mirrors
the corresponding Python string operation used by the tool, and each program
definition mirrors one function of the source file.
-/

set_option maxRecDepth 4000

/-- Strings of the modelled program: Python `str` as a list of characters. -/
abbrev Str := List Char

/-- Shorthand turning a Lean string literal into a `Str`. -/
def S (s : String) : Str := s.toList

/-- Characters stripped by Python `str.strip()` (whitespace per `str.isspace`). -/
def isPySpace (c : Char) : Bool :=
  [' ', '\t', '\n', '\r', '\u000b', '\u000c', '\u001c', '\u001d', '\u001e',
   '\u001f', '\u0085', '\u00a0', '\u1680', '\u2000', '\u2001', '\u2002',
   '\u2003', '\u2004', '\u2005', '\u2006', '\u2007', '\u2008', '\u2009',
   '\u200a', '\u2028', '\u2029', '\u202f', '\u205f', '\u3000'].contains c

/-- Line boundaries of Python `str.splitlines()`. -/
def isLineBreak (c : Char) : Bool :=
  ['\n', '\r', '\u000b', '\u000c', '\u001c', '\u001d', '\u001e', '\u0085',
   '\u2028', '\u2029'].contains c

/-- Python `str.lstrip()`. -/
def pyLstrip (s : Str) : Str := s.dropWhile isPySpace

/-- Python `str.rstrip()`. -/
def pyRstrip (s : Str) : Str := (s.reverse.dropWhile isPySpace).reverse

/-- Python `str.strip()`. -/
def pyStrip (s : Str) : Str := pyLstrip (pyRstrip s)

/-- Python `str.strip("|")`: drop `'|'` characters from both ends. -/
def stripPipes (s : Str) : Str :=
  ((s.dropWhile (· == '|')).reverse.dropWhile (· == '|')).reverse

/-- Python `str.lower()` (ASCII case mapping, enough for the tool's data). -/
def pyLower (s : Str) : Str := s.map Char.toLower

/-- Python `str.upper()` (ASCII case mapping). -/
def pyUpper (s : Str) : Str := s.map Char.toUpper

/-- Python `str.startswith(pat)`. -/
def startsWithS : Str → Str → Bool
  | [], _ => true
  | _ :: _, [] => false
  | p :: ps, c :: cs => p == c && startsWithS ps cs

/-- Python `pat in s`: contiguous-substring test. -/
def hasSub (pat : Str) : Str → Bool
  | [] => pat.isEmpty
  | c :: rest => startsWithS pat (c :: rest) || hasSub pat rest

/-- Python `s.split(sep)` for a one-character separator (never returns `[]`). -/
def pySplit (sep : Char) : Str → List Str
  | [] => [[]]
  | c :: rest =>
    if c == sep then [] :: pySplit sep rest
    else
      match pySplit sep rest with
      | [] => [[c]]
      | h :: t => (c :: h) :: t

/-- Python `s.split("-", 1)` when it yields two parts; `none` when `s` has no dash
(in the source an unpacking of a one-element list raises, caught by `except`). -/
def splitDash : Str → Option (Str × Str)
  | [] => none
  | c :: rest =>
    if c == '-' then some ([], rest)
    else
      match splitDash rest with
      | some (a, b) => some (c :: a, b)
      | none => none

/-- Digit tail of Python `int()` parsing: digits with single underscores between digits. -/
def digitsVal : Nat → List Char → Option Nat
  | acc, [] => some acc
  | acc, '_' :: c :: rest =>
    if c.isDigit then digitsVal (acc * 10 + (c.toNat - 48)) rest else none
  | acc, c :: rest =>
    if c.isDigit then digitsVal (acc * 10 + (c.toNat - 48)) rest else none

/-- Nonempty digit string (underscore rule of Python `int()`). -/
def pyIntDigits : List Char → Option Nat
  | [] => none
  | c :: rest => if c.isDigit then digitsVal (c.toNat - 48) rest else none

/-- Python `int(s)`: surrounding whitespace, optional sign, decimal digits;
`none` models a raised `ValueError`. -/
def pyInt (s : Str) : Option Int :=
  match pyStrip s with
  | '+' :: rest => (pyIntDigits rest).map Int.ofNat
  | '-' :: rest => (pyIntDigits rest).map (fun n => -(n : Int))
  | l => (pyIntDigits l).map Int.ofNat

/-- Python `str.splitlines()` worker: input, reversed current line, and a flag set
after a `'\r'` so that a following `'\n'` is swallowed (the flag is only ever set
together with an empty accumulator). -/
def slAux : List Char → List Char → Bool → List Str
  | [], acc, _ => if acc.isEmpty then [] else [acc.reverse]
  | c :: cs, acc, sw =>
    if sw && (c == '\n') then slAux cs [] false
    else if c == '\r' then acc.reverse :: slAux cs [] true
    else if isLineBreak c then acc.reverse :: slAux cs [] false
    else slAux cs (c :: acc) false

/-- Python `str.splitlines()`. -/
def pySplitlines (s : Str) : List Str := slAux s [] false

/-- Python `"\n".join(lines)`. -/
def joinLines : List Str → Str
  | [] => []
  | [l] => l
  | l :: ls => l ++ '\n' :: joinLines ls

/-- Python `" | ".join(cells)`. -/
def joinCells : List Str → Str
  | [] => []
  | [c] => c
  | c :: cs => c ++ S " | " ++ joinCells cs

/-- Table row of the tool: the fixed 6-field tuple
(SourceCode, Title, Meaning, TargetCode, TargetName, Status). -/
structure Row where
  cs : Str
  title : Str
  meaning : Str
  bcode : Str
  bname : Str
  status : Str
deriving DecidableEq

instance : Inhabited Row := ⟨⟨[], [], [], [], [], []⟩⟩

/-- Diagnostic entry `(code, title, meaning)` fed to the filter and merge stages. -/
abbrev CsEntry := Str × Str × Str

/-- The exact header line recognized by the tool. -/
def TABLE_HEADER : Str := S "| CS Code | Title | Meaning | B# Code | B# Name | Status |"

/-- The exact divider line recognized by the tool. -/
def TABLE_DIV : Str := S "| --- | --- | --- | --- | --- | --- |"

/-- Cells of a data line: `[c.strip() for c in line.strip().strip("|").split("|")]`. -/
def cellsOfLine (line : Str) : List Str :=
  (pySplit '|' (stripPipes (pyStrip line))).map pyStrip

/-- Pad or truncate a cell list to exactly 6 cells and build the `Row` tuple:
`(cells + [""] * 6)[:6]`. -/
def mkRow (cells : List Str) : Row :=
  ⟨cells.getD 0 [], cells.getD 1 [], cells.getD 2 [], cells.getD 3 [],
   cells.getD 4 [], cells.getD 5 []⟩

/-- Row parsed from one table data line. -/
def rowOfLine (line : Str) : Row := mkRow (cellsOfLine line)

/-- Loop body of `parse_semantic_table` over the document's lines, carrying the
`in_table` flag. -/
def parseAux : Bool → List Str → List Str × List Row
  | _, [] => ([], [])
  | false, line :: rest =>
    let r := parseAux (pyStrip line == TABLE_HEADER) rest
    (line :: r.1, r.2)
  | true, line :: rest =>
    let s := pyStrip line
    if s == TABLE_DIV then
      let r := parseAux true rest
      (line :: r.1, r.2)
    else if !startsWithS (S "|") s || (!s.isEmpty && s.all (· == '|')) then
      let r := parseAux false rest
      (line :: r.1, r.2)
    else
      let r := parseAux true rest
      (r.1, rowOfLine line :: r.2)

/-- Source `parse_semantic_table`: returns the out-lines (the reconstruction
prefix) and the parsed rows. -/
def parse_semantic_table (text : Str) : List Str × List Row :=
  parseAux false (pySplitlines text)

/-- Source `format_row`: `"| " + " | ".join(r) + " |"`. -/
def format_row (r : Row) : Str :=
  S "| " ++ joinCells [r.cs, r.title, r.meaning, r.bcode, r.bname, r.status] ++ S " |"

/-- Worker for `build_index` with a position offset; later rows override earlier
ones, exactly like the Python `dict` that is filled front to back. -/
def biAux (k : Nat) : List Row → Str → Option Nat
  | [], _ => none
  | r :: rest, c =>
    match biAux (k + 1) rest c with
    | some j => some j
    | none =>
      let cs := pyStrip r.cs
      if !cs.isEmpty && (cs == c) then some k else none

/-- Source `build_index`: maps a stripped, non-empty SourceCode to the last row
position carrying it. -/
def build_index (rows : List Row) : Str → Option Nat := biAux 0 rows

/-- Add to a Python `set` modelled as a duplicate-free list. -/
def setAdd (s : List Str) (x : Str) : List Str :=
  if s.contains x then s else s ++ [x]

/-- Source `load_code_list`; the file system is an explicit map from paths to
contents (`none` models a missing file, so `path.exists()` is `fs p ≠ none`). -/
def load_code_list (path : Option Str) (fs : Str → Option Str) : List Str :=
  match path with
  | none => []
  | some p =>
    match fs p with
    | none => []
    | some content =>
      (pySplitlines content).foldl
        (fun codes line =>
          let s := pyUpper (pyStrip line)
          if s.isEmpty || startsWithS (S "#") s then codes
          else if startsWithS (S "CS") s && decide (s.length ≥ 4) then setAdd codes s
          else codes)
        []

/-- The fixed semantic-keyword vocabulary of `is_likely_semantic`. -/
def semantic_keywords : List Str :=
  [S "does not exist in the current context", S "ambiguous",
   S "cannot implicitly convert", S "no implicit conversion", S "inaccessible",
   S "not all code paths return a value", S "inconsistent accessibility",
   S "already contains a definition", S "already defines a member",
   S "cannot override", S "no suitable method found to override", S "overload",
   S "abstract", S "virtual", S "sealed", S "override", S "async", S "interface",
   S "base class", S "derived", S "type parameter", S "constraints", S "nullable",
   S "const", S "readonly", S "static", S "operator", S "member", S "namespace",
   S "using directive", S "assembly reference", S "property or indexer", S "event"]

/-- The fixed syntax-like vocabulary of `is_likely_semantic` (named
`syntax_like` in the source). -/
def nonsemantic_phrases : List Str :=
  [S "invalid token", S "expected", S "must be a", S "only be used",
   S "cannot be after", S "'#' directives", S "array with a negative size",
   S "stackalloc"]

/-- Source `is_likely_semantic`: case-folded keyword containment test. -/
def is_likely_semantic (message : Str) : Bool :=
  let s := pyLower message
  semantic_keywords.any (fun k => hasSub k s) &&
    !(nonsemantic_phrases.any (fun k => hasSub k s))

/-- Source `filter_cs_rows.in_range`: any failure inside the `try` block
(missing dash, non-numeric suffix) yields `True`. -/
def in_range (code : Str) (rng : Str) : Bool :=
  match splitDash rng with
  | none => true
  | some (a0, b0) =>
    let a := pyUpper (pyStrip a0)
    let b := pyUpper (pyStrip b0)
    if !(startsWithS (S "CS") a && startsWithS (S "CS") b) then true
    else
      match pyInt (a.drop 2), pyInt (b.drop 2), pyInt (code.drop 2) with
      | some na, some nb, some n => decide (na ≤ n) && decide (n ≤ nb)
      | _, _, _ => true

/-- The `starts_with and not code.startswith(starts_with.upper())` skip
condition; `None` and the empty string are falsy in Python, hence inactive. -/
def prefixRejects (starts_with : Option Str) (code : Str) : Bool :=
  match starts_with with
  | some s => !s.isEmpty && !startsWithS (pyUpper s) code
  | none => false

/-- The `code_range and not in_range(code, code_range)` skip condition. -/
def rangeRejects (code_range : Option Str) (code : Str) : Bool :=
  match code_range with
  | some s => !s.isEmpty && !in_range code s
  | none => false

/-- One entry's fate in `filter_cs_rows`: the chain of `continue` conditions. -/
def keepEntry (starts_with code_range : Option Str) (semantic_only : Bool)
    (include_codes exclude_codes : List Str) (e : CsEntry) : Bool :=
  let code := e.1
  let meaning := e.2.2
  if prefixRejects starts_with code then false
  else if rangeRejects code_range code then false
  else if exclude_codes.contains code then false
  else if semantic_only && !include_codes.contains code &&
      !is_likely_semantic meaning then false
  else true

/-- Source `filter_cs_rows`: keeps, in order, the entries passing every filter. -/
def filter_cs_rows (cs_rows : List CsEntry) (starts_with code_range : Option Str)
    (semantic_only : Bool) (include_codes exclude_codes : List Str) : List CsEntry :=
  cs_rows.filter (keepEntry starts_with code_range semantic_only include_codes exclude_codes)

/-- In-place update of a matched row in `merge_rows`: fill Title/Meaning when
empty, keep a non-empty SourceCode (`cs_code or code`), keep the target fields. -/
def updateRow (old : Row) (e : CsEntry) : Row :=
  { cs := if old.cs.isEmpty then e.1 else old.cs
    title := if old.title.isEmpty then e.2.1 else old.title
    meaning := if old.meaning.isEmpty then e.2.2 else old.meaning
    bcode := old.bcode, bname := old.bname, status := old.status }

/-- Row appended by `merge_rows` for an unmatched entry. -/
def entryRow (e : CsEntry) : Row := ⟨e.1, e.2.1, e.2.2, [], [], []⟩

/-- One iteration of the `merge_rows` loop. -/
def mergeStep (index : Str → Option Nat) (fill_only : Bool)
    (merged : List Row) (e : CsEntry) : List Row :=
  match index e.1 with
  | some i => merged.set i (updateRow (merged.getD i default) e)
  | none => if fill_only then merged else merged ++ [entryRow e]

/-- Source `merge_rows`: the index is built once from `existing` and then the
entries are folded over it. -/
def merge_rows (existing : List Row) (cs_rows : List CsEntry) (fill_only : Bool) : List Row :=
  cs_rows.foldl (mergeStep (build_index existing) fill_only) existing

/-- Lines emitted by `reconstruct_doc` before joining: the prefix verbatim, then
(when the header was seen) a divider unless the last prefix line already strips
to the divider, then every merged row. -/
def reconLines (prefix_lines : List Str) (rows : List Row) : List Str :=
  let header_emitted := prefix_lines.any (fun l => pyStrip l == TABLE_HEADER)
  if header_emitted then
    (match prefix_lines.getLast? with
      | none => prefix_lines ++ [TABLE_DIV]
      | some l => if pyStrip l == TABLE_DIV then prefix_lines
                  else prefix_lines ++ [TABLE_DIV])
      ++ rows.map format_row
  else prefix_lines

/-- Source `reconstruct_doc`: `"\n".join(out).rstrip() + "\n"`. -/
def reconstruct_doc (prefix_lines : List Str) (rows : List Row) : Str :=
  pyRstrip (joinLines (reconLines prefix_lines rows)) ++ ['\n']

/-- The processing pipeline of `main` on explicit inputs: parse the catalogue,
filter the reference entries, merge, reconstruct. -/
def run_pipeline (sem_text : Str) (cs_rows_all : List CsEntry)
    (starts_with code_range : Option Str) (semantic_only : Bool)
    (include_codes exclude_codes : List Str) (fill_only : Bool) : Str :=
  let parsed := parse_semantic_table sem_text
  let cs := filter_cs_rows cs_rows_all starts_with code_range semantic_only
    include_codes exclude_codes
  reconstruct_doc parsed.1 (merge_rows parsed.2 cs fill_only)

/-- The `new_doc == sem_text` test of `main`: when true the run prints
"No changes." and returns without writing. -/
def reports_no_changes (sem_text : Str) (cs_rows_all : List CsEntry)
    (starts_with code_range : Option Str) (semantic_only : Bool)
    (include_codes exclude_codes : List Str) (fill_only : Bool) : Bool :=
  run_pipeline sem_text cs_rows_all starts_with code_range semantic_only
    include_codes exclude_codes fill_only == sem_text

/-- A line parsed as a table data row while in table mode: starts with the
delimiter, is not the divider, and is not made of delimiter characters only. -/
def isDataLine (l : Str) : Bool :=
  let s := pyStrip l
  !(s == TABLE_DIV) && startsWithS (S "|") s && !(!s.isEmpty && s.all (· == '|'))

/-- A line that ends table mode. -/
def isEnder (l : Str) : Bool :=
  let s := pyStrip l
  !startsWithS (S "|") s || (!s.isEmpty && s.all (· == '|'))

/-- The row whose six cells are all `"---"`; it formats exactly to the divider. -/
def dashRow : Row := ⟨S "---", S "---", S "---", S "---", S "---", S "---"⟩

/-- A cell as produced by the parser: whitespace-trimmed and delimiter-free. -/
def CleanCell (s : Str) : Prop := pyStrip s = s ∧ ∀ c ∈ s, c ≠ '|'

/-- A string containing no line-boundary character. -/
def BreakFree (s : Str) : Prop := ∀ c ∈ s, isLineBreak c = false

/-- A row all of whose cells are clean and line-break free. -/
def CleanRow (r : Row) : Prop :=
  (CleanCell r.cs ∧ BreakFree r.cs) ∧ (CleanCell r.title ∧ BreakFree r.title) ∧
  (CleanCell r.meaning ∧ BreakFree r.meaning) ∧ (CleanCell r.bcode ∧ BreakFree r.bcode) ∧
  (CleanCell r.bname ∧ BreakFree r.bname) ∧ (CleanCell r.status ∧ BreakFree r.status)

/-- A diagnostic entry as the extractor produces it: a non-empty trimmed code and
trimmed, delimiter-free, line-break-free fields. -/
def CleanEntry (e : CsEntry) : Prop :=
  e.1 ≠ [] ∧ (CleanCell e.1 ∧ BreakFree e.1) ∧ (CleanCell e.2.1 ∧ BreakFree e.2.1) ∧
    (CleanCell e.2.2 ∧ BreakFree e.2.2)


/-- Relation between an original row and its merged version: SourceCode and the
three target-side fields unchanged; Title and Meaning either unchanged or
filled from one of the entries when previously empty. -/
def RelRows (cs : List CsEntry) (a b : Row) : Prop :=
  b.cs = a.cs ∧ b.bcode = a.bcode ∧ b.bname = a.bname ∧ b.status = a.status ∧
  (b.title = a.title ∨ (a.title = [] ∧ ∃ e ∈ cs, b.title = e.2.1)) ∧
  (b.meaning = a.meaning ∨ (a.meaning = [] ∧ ∃ e ∈ cs, b.meaning = e.2.2))

/-- Rows appended by `merge_rows`: exactly the entries missing from the index,
in order, when fill-only is off. -/
def appendedRows (existing : List Row) (cs : List CsEntry) (fill_only : Bool) : List Row :=
  if fill_only then []
  else (cs.filter (fun e => (build_index existing e.1).isNone)).map entryRow


/-! Helper lemmas on the Python string primitives. -/

theorem dropWhile_length_le {p : Char → Bool} :
    ∀ l : Str, (l.dropWhile p).length ≤ l.length := by
  intro l
  induction l with
  | nil => simp
  | cons c rest ih =>
    by_cases hc : p c = true
    · rw [List.dropWhile_cons_of_pos hc]
      exact Nat.le_succ_of_le ih
    · rw [List.dropWhile_cons_of_neg hc]

theorem dropWhile_head_not {p : Char → Bool} :
    ∀ (l : Str) (c : Char) (rest : Str), l.dropWhile p = c :: rest → p c = false := by
  intro l
  induction l with
  | nil => intro c rest h; simp at h
  | cons a as ih =>
    intro c rest h
    by_cases ha : p a = true
    · rw [List.dropWhile_cons_of_pos ha] at h
      exact ih c rest h
    · rw [List.dropWhile_cons_of_neg ha] at h
      cases h
      simpa using ha

theorem dropWhile_eq_self_of_length {p : Char → Bool} :
    ∀ l : Str, (l.dropWhile p).length = l.length → l.dropWhile p = l := by
  intro l h
  induction l with
  | nil => rfl
  | cons c rest ih =>
    by_cases hc : p c = true
    · exfalso
      rw [List.dropWhile_cons_of_pos hc] at h
      have := dropWhile_length_le (p := p) rest
      simp at h
      omega
    · rw [List.dropWhile_cons_of_neg hc]

theorem pyRstrip_length_le (s : Str) : (pyRstrip s).length ≤ s.length := by
  unfold pyRstrip
  have := dropWhile_length_le (p := isPySpace) s.reverse
  simpa using this

theorem pyLstrip_length_le (s : Str) : (pyLstrip s).length ≤ s.length :=
  dropWhile_length_le s

theorem pyStrip_self (s : Str) (h : pyStrip s = s) :
    pyLstrip s = s ∧ pyRstrip s = s := by
  unfold pyStrip at h
  have h1 : (pyRstrip s).length = s.length := by
    have l1 := pyLstrip_length_le (pyRstrip s)
    have l2 := pyRstrip_length_le s
    have : (pyLstrip (pyRstrip s)).length = s.length := by rw [h]
    omega
  have h2 : pyRstrip s = s := by
    unfold pyRstrip at h1 ⊢
    have : (s.reverse.dropWhile isPySpace).length = s.reverse.length := by
      simpa using h1
    rw [dropWhile_eq_self_of_length _ this, List.reverse_reverse]
  rw [h2] at h
  exact ⟨h, h2⟩

theorem pyLstrip_cons_of_space {c : Char} (h : isPySpace c = true) (s : Str) :
    pyLstrip (c :: s) = pyLstrip s :=
  List.dropWhile_cons_of_pos h

theorem pyLstrip_cons_of_not {c : Char} (h : isPySpace c = false) (s : Str) :
    pyLstrip (c :: s) = c :: s :=
  List.dropWhile_cons_of_neg (by simp [h])

theorem pyRstrip_snoc_of_space {c : Char} (h : isPySpace c = true) (s : Str) :
    pyRstrip (s ++ [c]) = pyRstrip s := by
  unfold pyRstrip
  rw [List.reverse_append]
  simp [List.dropWhile_cons_of_pos h]

theorem pyRstrip_snoc_of_not {c : Char} (h : isPySpace c = false) (s : Str) :
    pyRstrip (s ++ [c]) = s ++ [c] := by
  unfold pyRstrip
  rw [List.reverse_append]
  simp [List.dropWhile_cons_of_neg (by simp [h] : ¬ isPySpace c = true)]

theorem dropWhile_append_of_ne_nil {p : Char → Bool} :
    ∀ a b : Str, a.dropWhile p ≠ [] → (a ++ b).dropWhile p = a.dropWhile p ++ b := by
  intro a b h
  induction a with
  | nil => simp at h
  | cons c rest ih =>
    by_cases hc : p c = true
    · rw [List.dropWhile_cons_of_pos hc] at h ⊢
      simpa [List.dropWhile_cons_of_pos hc] using ih h
    · simp [List.dropWhile_cons_of_neg hc]

theorem pyRstrip_append_of_ne_nil (x y : Str) (h : pyRstrip y ≠ []) :
    pyRstrip (x ++ y) = x ++ pyRstrip y := by
  unfold pyRstrip at h ⊢
  rw [List.reverse_append]
  have hy : y.reverse.dropWhile isPySpace ≠ [] := by
    intro he; rw [he] at h; simp at h
  rw [dropWhile_append_of_ne_nil _ _ hy]
  simp

theorem pyRstrip_idem (s : Str) : pyRstrip (pyRstrip s) = pyRstrip s := by
  unfold pyRstrip
  rw [List.reverse_reverse]
  cases hs : s.reverse.dropWhile isPySpace with
  | nil => simp
  | cons c rest =>
    have hc : isPySpace c = false := dropWhile_head_not _ c rest hs
    simp [List.dropWhile_cons_of_neg (by simp [hc] : ¬ isPySpace c = true)]

theorem pyStrip_pyRstrip (s : Str) : pyStrip (pyRstrip s) = pyStrip s := by
  unfold pyStrip
  rw [pyRstrip_idem]

theorem pyStrip_ne_nil_rstrip {s : Str} (h : pyStrip s ≠ []) : pyRstrip s ≠ [] := by
  intro he
  apply h
  unfold pyStrip
  rw [he]
  rfl

/-! Claim C6. -/

/-- Claim C6: for a diagnostic entry whose code is absent from the existing
table's index, merging with fill-only drops the entry (no new row), while
merging without fill-only appends exactly the one new row with Title and
Meaning populated and the three target-side fields empty. -/
theorem merge_rows_absent_entry (existing : List Row) (c t m : Str)
    (h : build_index existing c = none) :
    merge_rows existing [(c, t, m)] true = existing ∧
    merge_rows existing [(c, t, m)] false = existing ++ [⟨c, t, m, [], [], []⟩] := by
  constructor <;> simp [merge_rows, mergeStep, h, entryRow]

/-- Witness for C6 at a concrete table and entry. -/
theorem merge_rows_absent_entry_witness :
    merge_rows [⟨S "CS0001", S "a", S "b", S "c", S "d", S "e"⟩]
      [(S "CS0002", S "T", S "M")] true =
      [⟨S "CS0001", S "a", S "b", S "c", S "d", S "e"⟩] ∧
    merge_rows [⟨S "CS0001", S "a", S "b", S "c", S "d", S "e"⟩]
      [(S "CS0002", S "T", S "M")] false =
      [⟨S "CS0001", S "a", S "b", S "c", S "d", S "e"⟩,
       ⟨S "CS0002", S "T", S "M", [], [], []⟩] :=
  merge_rows_absent_entry _ _ _ _ (by decide)

/-! Claim C10. -/

/-- Claim C10: `load_code_list` returns the empty set when the path is `None`
or when the file does not exist, so a missing list file behaves exactly like no
list at all. -/
theorem load_code_list_missing (p : Str) (fs : Str → Option Str)
    (h : fs p = none) :
    load_code_list none fs = [] ∧ load_code_list (some p) fs = [] := by
  constructor
  · rfl
  · simp [load_code_list, h]

/-- Witness for C10 on a concrete empty file system. -/
theorem load_code_list_missing_witness :
    load_code_list none (fun _ => none) = [] ∧
    load_code_list (some (S "include.txt")) (fun _ => none) = [] :=
  load_code_list_missing _ _ rfl

/-! Claim C8. -/

/-- Claim C8: with a well-formed range whose two endpoints carry the `CS`
prefix, an entry passes `in_range` exactly when its numeric suffix lies in the
inclusive interval; a range without a dash, without both prefixes, or with a
non-numeric piece passes everything; and the spec's concrete examples hold. -/
theorem in_range_spec :
    (∀ (code rng a0 b0 : Str) (na nb n : Int),
      splitDash rng = some (a0, b0) →
      startsWithS (S "CS") (pyUpper (pyStrip a0)) = true →
      startsWithS (S "CS") (pyUpper (pyStrip b0)) = true →
      pyInt ((pyUpper (pyStrip a0)).drop 2) = some na →
      pyInt ((pyUpper (pyStrip b0)).drop 2) = some nb →
      pyInt (code.drop 2) = some n →
      (in_range code rng = true ↔ na ≤ n ∧ n ≤ nb)) ∧
    (∀ code rng : Str, splitDash rng = none → in_range code rng = true) ∧
    (∀ code rng a0 b0 : Str, splitDash rng = some (a0, b0) →
      (startsWithS (S "CS") (pyUpper (pyStrip a0)) = false ∨
       startsWithS (S "CS") (pyUpper (pyStrip b0)) = false) →
      in_range code rng = true) ∧
    (∀ code rng a0 b0 : Str, splitDash rng = some (a0, b0) →
      (pyInt ((pyUpper (pyStrip a0)).drop 2) = none ∨
       pyInt ((pyUpper (pyStrip b0)).drop 2) = none ∨
       pyInt (code.drop 2) = none) →
      in_range code rng = true) ∧
    in_range (S "CS0150") (S "CS0100-CS0199") = true ∧
    in_range (S "CS0200") (S "CS0100-CS0199") = false := by
  refine ⟨?_, ?_, ?_, ?_, by decide, by decide⟩
  · intro code rng a0 b0 na nb n h1 h2 h3 h4 h5 h6
    simp [in_range, h1, h2, h3, h4, h5, h6, decide_eq_true_iff]
  · intro code rng h1
    simp [in_range, h1]
  · intro code rng a0 b0 h1 h2
    rcases h2 with h2 | h2 <;> simp [in_range, h1, h2]
  · intro code rng a0 b0 h1 h2
    by_cases hpa : startsWithS (S "CS") (pyUpper (pyStrip a0)) = true
    · by_cases hpb : startsWithS (S "CS") (pyUpper (pyStrip b0)) = true
      · rcases h2 with h2 | h2 | h2 <;>
          · simp only [in_range, h1, hpa, hpb, Bool.and_self, Bool.not_true,
              Bool.false_eq_true, if_false]
            cases ha : pyInt ((pyUpper (pyStrip a0)).drop 2) <;>
              cases hb : pyInt ((pyUpper (pyStrip b0)).drop 2) <;>
                cases hc : pyInt (code.drop 2) <;> simp_all
      · simp [in_range, h1, eq_false_of_ne_true hpb]
    · simp [in_range, h1, eq_false_of_ne_true hpa]

/-- Witness for C8 instantiating the well-formed-range clause on the spec's
example range and code. -/
theorem in_range_spec_witness :
    in_range (S "CS0150") (S "CS0100-CS0199") = true ↔ (100 : Int) ≤ 150 ∧ (150 : Int) ≤ 199 :=
  in_range_spec.1 (S "CS0150") (S "CS0100-CS0199") (S "CS0100") (S "CS0199")
    100 199 150 (by decide) (by decide) (by decide) (by decide) (by decide) (by decide)

/-! Claim C7. -/

theorem startsWithS_map_of_fixed {f : Char → Char} :
    ∀ pat s : Str, (∀ c ∈ pat, f c = c) → startsWithS pat s = true →
      startsWithS pat (s.map f) = true := by
  intro pat
  induction pat with
  | nil => intro s _ _; cases s <;> rfl
  | cons p ps ih =>
    intro s hf h
    cases s with
    | nil => simp [startsWithS] at h
    | cons c cs =>
      simp only [startsWithS, Bool.and_eq_true, beq_iff_eq] at h
      obtain ⟨rfl, h2⟩ := h
      simp only [List.map_cons, startsWithS, Bool.and_eq_true, beq_iff_eq]
      refine ⟨(hf p (by simp)).symm, ih cs (fun c hc => hf c (by simp [hc])) h2⟩

theorem hasSub_map_of_fixed {f : Char → Char} (pat : Str)
    (hf : ∀ c ∈ pat, f c = c) :
    ∀ s : Str, hasSub pat s = true → hasSub pat (s.map f) = true := by
  intro s
  induction s with
  | nil => intro h; simpa [hasSub] using h
  | cons c cs ih =>
    intro h
    simp only [hasSub, Bool.or_eq_true] at h
    rcases h with h | h
    · simp only [List.map_cons, hasSub, Bool.or_eq_true]
      exact Or.inl (by simpa using startsWithS_map_of_fixed pat (c :: cs) hf h)
    · simp only [List.map_cons, hasSub, Bool.or_eq_true]
      exact Or.inr (ih h)

/-- Claim C7: with semantic-only filtering on, an entry passing the prefix,
range and exclusion filters is kept iff its code is in the include-set or its
meaning matches the heuristic; a meaning containing "ambiguous" (case-folded)
and no syntax-like phrase is classified semantic; and an entry outside the
include-set whose meaning contains both "ambiguous" and "expected" is dropped. -/
theorem semantic_only_filter_spec :
    (∀ (e : CsEntry) (sw rng : Option Str) (inc exc : List Str),
      prefixRejects sw e.1 = false → rangeRejects rng e.1 = false →
      exc.contains e.1 = false →
      (filter_cs_rows [e] sw rng true inc exc = [e] ↔
        (inc.contains e.1 = true ∨ is_likely_semantic e.2.2 = true))) ∧
    (∀ m : Str, hasSub (S "ambiguous") (pyLower m) = true →
      (∀ k ∈ nonsemantic_phrases, hasSub k (pyLower m) = false) →
      is_likely_semantic m = true) ∧
    (∀ (e : CsEntry) (sw rng : Option Str) (inc exc : List Str),
      inc.contains e.1 = false →
      hasSub (S "ambiguous") e.2.2 = true → hasSub (S "expected") e.2.2 = true →
      filter_cs_rows [e] sw rng true inc exc = []) := by
  refine ⟨?_, ?_, ?_⟩
  · intro e sw rng inc exc hp hr hx
    rw [show inc.contains e.1 = decide (e.1 ∈ inc) from List.elem_eq_mem e.1 inc] at *
    rw [show exc.contains e.1 = decide (e.1 ∈ exc) from List.elem_eq_mem e.1 exc] at hx
    cases hinc : decide (e.1 ∈ inc) <;> cases hlik : is_likely_semantic e.2.2 <;>
      simp [filter_cs_rows, List.filter, keepEntry, hp, hr, hx, hinc, hlik]
  · intro m hamb hsyn
    have hmem : S "ambiguous" ∈ semantic_keywords := by decide
    have h1 : semantic_keywords.any (fun k => hasSub k (pyLower m)) = true :=
      List.any_eq_true.mpr ⟨S "ambiguous", hmem, hamb⟩
    have h2 : nonsemantic_phrases.any (fun k => hasSub k (pyLower m)) = false := by
      rw [List.any_eq_false]
      intro k hk
      simp [hsyn k hk]
    simp [is_likely_semantic, h1, h2]
  · intro e sw rng inc exc hinc hamb hexp
    have hlow : ∀ c ∈ S "expected", Char.toLower c = c := by decide
    have hexp' : hasSub (S "expected") (pyLower e.2.2) = true :=
      hasSub_map_of_fixed _ hlow _ hexp
    have h2 : nonsemantic_phrases.any (fun k => hasSub k (pyLower e.2.2)) = true :=
      List.any_eq_true.mpr ⟨S "expected", by decide, hexp'⟩
    have hlik : is_likely_semantic e.2.2 = false := by
      simp [is_likely_semantic, h2]
    rw [show inc.contains e.1 = decide (e.1 ∈ inc) from List.elem_eq_mem e.1 inc] at hinc
    by_cases hp : prefixRejects sw e.1 = true
    · simp [filter_cs_rows, List.filter, keepEntry, hp]
    · by_cases hr : rangeRejects rng e.1 = true
      · simp [filter_cs_rows, List.filter, keepEntry, hp, hr]
      · by_cases hx : decide (e.1 ∈ exc) = true
        · simp [filter_cs_rows, List.filter, keepEntry, hp, hr, hx]
        · simp [filter_cs_rows, List.filter, keepEntry, hp, hr,
            eq_false_of_ne_true hx, hinc, hlik]

/-- Witness for C7: a concrete entry with an "ambiguous" meaning passes, and a
concrete "ambiguous ... expected" entry is rejected. -/
theorem semantic_only_filter_spec_witness :
    (filter_cs_rows [(S "CS0104", S "t", S "the call is ambiguous here")]
        none none true [] [] =
      [(S "CS0104", S "t", S "the call is ambiguous here")] ↔
      (([] : List Str).contains (S "CS0104") = true ∨
        is_likely_semantic (S "the call is ambiguous here") = true)) ∧
    filter_cs_rows [(S "CS0105", S "t", S "ambiguous reference, expected a type")]
        none none true [] [] = [] :=
  ⟨semantic_only_filter_spec.1 (S "CS0104", S "t", S "the call is ambiguous here")
      none none [] [] (by decide) (by decide) (by decide),
   semantic_only_filter_spec.2.2 (S "CS0105", S "t", S "ambiguous reference, expected a type")
      none none [] [] (by decide) (by decide) (by decide)⟩

/-! Parsing lemmas for `parseAux`. -/

theorem parseAux_nil (b : Bool) : parseAux b [] = ([], []) := by
  cases b <;> rfl

theorem parseAux_pass (P rest : List Str)
    (h : ∀ l ∈ P, pyStrip l ≠ TABLE_HEADER) :
    parseAux false (P ++ rest) =
      (P ++ (parseAux false rest).1, (parseAux false rest).2) := by
  induction P with
  | nil => simp
  | cons l P ih =>
    have hl : (pyStrip l == TABLE_HEADER) = false := by
      simpa using h l (by simp)
    simp only [List.cons_append, parseAux, hl, List.append_eq]
    rw [ih (fun x hx => h x (by simp [hx]))]

theorem parseAux_header (h : Str) (rest : List Str) (hh : pyStrip h = TABLE_HEADER) :
    parseAux false (h :: rest) =
      (h :: (parseAux true rest).1, (parseAux true rest).2) := by
  have hb : (pyStrip h == TABLE_HEADER) = true := by simp [hh]
  simp only [parseAux, hb]

theorem parseAux_divs (D rest : List Str) (hD : ∀ l ∈ D, pyStrip l = TABLE_DIV) :
    parseAux true (D ++ rest) =
      (D ++ (parseAux true rest).1, (parseAux true rest).2) := by
  induction D with
  | nil => simp
  | cons l D ih =>
    have hl : (pyStrip l == TABLE_DIV) = true := by simp [hD l (by simp)]
    simp only [List.cons_append, parseAux, hl, if_true, List.append_eq]
    rw [ih (fun x hx => hD x (by simp [hx]))]

theorem isDataLine_parts {l : Str} (h : isDataLine l = true) :
    (pyStrip l == TABLE_DIV) = false ∧
    (!startsWithS (S "|") (pyStrip l) ||
      (!(pyStrip l).isEmpty && (pyStrip l).all (· == '|'))) = false := by
  simp only [isDataLine, Bool.and_eq_true, Bool.not_eq_true'] at h
  obtain ⟨⟨h1, h2⟩, h3⟩ := h
  refine ⟨h1, ?_⟩
  simp [h2, h3]

theorem parseAux_data (R rest : List Str) (hR : ∀ l ∈ R, isDataLine l = true) :
    parseAux true (R ++ rest) =
      ((parseAux true rest).1, R.map rowOfLine ++ (parseAux true rest).2) := by
  induction R with
  | nil => simp
  | cons l R ih =>
    obtain ⟨h1, h2⟩ := isDataLine_parts (hR l (by simp))
    simp only [List.cons_append, parseAux, h1, h2, Bool.false_eq_true, if_false,
      List.append_eq]
    rw [ih (fun x hx => hR x (by simp [hx]))]
    simp

theorem parseAux_ender (e : Str) (rest : List Str) (he : isEnder e = true) :
    parseAux true (e :: rest) =
      (e :: (parseAux false rest).1, (parseAux false rest).2) := by
  have hdiv : (pyStrip e == TABLE_DIV) = false := by
    by_contra hne
    have heq : pyStrip e = TABLE_DIV :=
      by simpa using eq_true_of_ne_false hne
    rw [isEnder, heq] at he
    revert he
    decide
  have hend : (!startsWithS (S "|") (pyStrip e) ||
      (!(pyStrip e).isEmpty && (pyStrip e).all (· == '|'))) = true := he
  simp only [parseAux, hdiv, hend, Bool.false_eq_true, if_false, if_true]

/-! Claim C2. -/

/-- Counterexample to C2 as stated: after the first table ends, a second
header line re-enters table mode, so the line following the later header is
parsed as a row too. -/
theorem parse_reenters_counterexample :
    (parse_semantic_table
      (S "| CS Code | Title | Meaning | B# Code | B# Name | Status |\n| x |\n\n| CS Code | Title | Meaning | B# Code | B# Name | Status |\n| y |")).2 =
      [rowOfLine (S "| x |"), rowOfLine (S "| y |")] ∧
    rowOfLine (S "| y |") = ⟨S "y", [], [], [], [], []⟩ := by
  constructor <;> decide

/-- Claim C2 amended: `parse_semantic_table` is not restricted to the first
table; once a table has ended, a later line equal to the header text re-enters
table mode and the following data lines are parsed as rows, concatenated after
the first table's rows. -/
theorem parse_reenters_later_tables (A : List Str) (h₁ : Str) (R₁ : List Str)
    (e : Str) (h₂ : Str) (R₂ : List Str)
    (hA : ∀ l ∈ A, pyStrip l ≠ TABLE_HEADER)
    (hh₁ : pyStrip h₁ = TABLE_HEADER)
    (hR₁ : ∀ l ∈ R₁, isDataLine l = true)
    (he : isEnder e = true)
    (hh₂ : pyStrip h₂ = TABLE_HEADER)
    (hR₂ : ∀ l ∈ R₂, isDataLine l = true) :
    parseAux false (A ++ h₁ :: (R₁ ++ e :: h₂ :: R₂)) =
      (A ++ [h₁, e, h₂], R₁.map rowOfLine ++ R₂.map rowOfLine) := by
  rw [parseAux_pass A _ hA, parseAux_header _ _ hh₁, parseAux_data _ _ hR₁,
    parseAux_ender _ _ he, parseAux_header _ _ hh₂]
  have hdata : parseAux true (R₂ ++ []) =
      ((parseAux true []).1, R₂.map rowOfLine ++ (parseAux true []).2) :=
    parseAux_data R₂ [] hR₂
  rw [List.append_nil] at hdata
  rw [hdata]
  simp [parseAux_nil]

/-- Witness for the amended C2 on a concrete two-table document. -/
theorem parse_reenters_later_tables_witness :
    parseAux false ([S "intro"] ++ TABLE_HEADER :: ([S "| x |"] ++
        (S "") :: TABLE_HEADER :: [S "| y |"])) =
      ([S "intro"] ++ [TABLE_HEADER, S "", TABLE_HEADER],
        [S "| x |"].map rowOfLine ++ [S "| y |"].map rowOfLine) :=
  parse_reenters_later_tables [S "intro"] TABLE_HEADER [S "| x |"] (S "")
    TABLE_HEADER [S "| y |"] (by decide) (by decide) (by decide) (by decide)
    (by decide) (by decide)


theorem reconLines_of_header (prefix_lines : List Str) (rows : List Row) (l0 : Str)
    (hmem : l0 ∈ prefix_lines) (hhd : pyStrip l0 = TABLE_HEADER) :
    reconLines prefix_lines rows =
      (match prefix_lines.getLast? with
        | none => prefix_lines ++ [TABLE_DIV]
        | some l => if pyStrip l = TABLE_DIV then prefix_lines
                    else prefix_lines ++ [TABLE_DIV]) ++ rows.map format_row := by
  have hany : prefix_lines.any (fun l => pyStrip l == TABLE_HEADER) = true :=
    List.any_eq_true.mpr ⟨l0, hmem, by simp [hhd]⟩
  rw [reconLines, hany]
  simp only [if_true]
  cases hlast : prefix_lines.getLast? with
  | none => rfl
  | some l =>
    by_cases hdiv : pyStrip l = TABLE_DIV
    · simp [hdiv]
    · simp [hdiv]

theorem reconLines_of_no_header (prefix_lines : List Str) (rows : List Row)
    (hno : ∀ l ∈ prefix_lines, pyStrip l ≠ TABLE_HEADER) :
    reconLines prefix_lines rows = prefix_lines := by
  have hany : prefix_lines.any (fun l => pyStrip l == TABLE_HEADER) = false := by
    rw [List.any_eq_false]
    intro l hl
    simp [hno l hl]
  rw [reconLines, hany]
  simp

/-! Claim C1. -/

/-- Counterexample to C1 as stated: when the parsed prefix continues past the
header (here with the reachable prefix of the document `header \n tail`), the
divider is not emitted immediately after the header line — position 1 holds the
later prefix line and the divider is appended after the whole prefix instead,
even though the prefix had no divider following the header. -/
theorem reconstruct_divider_counterexample :
    reconLines [TABLE_HEADER, S "tail"] [⟨S "CS0001", [], [], [], [], []⟩] =
      [TABLE_HEADER, S "tail", TABLE_DIV,
        format_row ⟨S "CS0001", [], [], [], [], []⟩] ∧
    (reconLines [TABLE_HEADER, S "tail"]
        [⟨S "CS0001", [], [], [], [], []⟩]).get? 1 = some (S "tail") ∧
    S "tail" ≠ TABLE_DIV := by
  refine ⟨by decide, by decide, by decide⟩

/-- Claim C1 amended: when the prefix contains the header line anywhere,
`reconLines` emits the prefix verbatim, then appends the divider at the end of
the whole prefix unless the last prefix line already strips to the divider
(so no divider is duplicated at that position), and then appends every merged
row; the rows therefore follow the header directly only when nothing else
follows the header inside the prefix. Without a header the prefix is returned
unchanged and no rows are emitted. -/
theorem reconLines_spec (prefix_lines : List Str) (rows : List Row) (l0 : Str)
    (hmem : l0 ∈ prefix_lines) (hhd : pyStrip l0 = TABLE_HEADER) :
    reconLines prefix_lines rows =
      (match prefix_lines.getLast? with
        | none => prefix_lines ++ [TABLE_DIV]
        | some l => if pyStrip l = TABLE_DIV then prefix_lines
                    else prefix_lines ++ [TABLE_DIV]) ++ rows.map format_row ∧
    (∀ prefix₂ : List Str, (∀ l ∈ prefix₂, pyStrip l ≠ TABLE_HEADER) →
      reconLines prefix₂ rows = prefix₂) :=
  ⟨reconLines_of_header prefix_lines rows l0 hmem hhd,
   fun prefix₂ hno => reconLines_of_no_header prefix₂ rows hno⟩

/-- Witness for the amended C1 on the counterexample's inputs. -/
theorem reconLines_spec_witness :
    (reconLines [TABLE_HEADER, S "tail"] [⟨S "CS0001", [], [], [], [], []⟩] =
      (match [TABLE_HEADER, S "tail"].getLast? with
        | none => [TABLE_HEADER, S "tail"] ++ [TABLE_DIV]
        | some l => if pyStrip l = TABLE_DIV then [TABLE_HEADER, S "tail"]
                    else [TABLE_HEADER, S "tail"] ++ [TABLE_DIV]) ++
        [⟨S "CS0001", [], [], [], [], []⟩].map format_row) ∧
    (∀ prefix₂ : List Str, (∀ l ∈ prefix₂, pyStrip l ≠ TABLE_HEADER) →
      reconLines prefix₂ [⟨S "CS0001", [], [], [], [], []⟩] = prefix₂) :=
  reconLines_spec [TABLE_HEADER, S "tail"] [⟨S "CS0001", [], [], [], [], []⟩]
    TABLE_HEADER (by decide) (by decide)

/-! Claim C4, the counterexample part. -/

/-- Counterexample to C4 as stated: two filtered entries sharing a code absent
from the (trivially duplicate-free) existing table are each appended, so the
merged table carries the same non-empty SourceCode in two rows. -/
theorem merge_duplicate_codes_counterexample :
    ((merge_rows [] [(S "CS0100", S "t", S "m"), (S "CS0100", S "u", S "n")]
        false).map Row.cs).count (S "CS0100") = 2 ∧
    S "CS0100" ≠ [] := by
  constructor <;> decide

/-! Lemmas about `build_index`. -/

theorem pyStrip_nil : pyStrip ([] : Str) = [] := rfl

theorem ne_nil_of_pyStrip_ne_nil {s : Str} (h : pyStrip s ≠ []) : s ≠ [] := by
  intro he
  exact h (by rw [he]; rfl)

theorem biAux_some_spec :
    ∀ (rows : List Row) (k : Nat) (c : Str) (i : Nat),
      biAux k rows c = some i →
      ∃ j, j < rows.length ∧ i = k + j ∧
        pyStrip ((rows.getD j default).cs) = c ∧ c ≠ [] := by
  intro rows
  induction rows with
  | nil => intro k c i h; simp [biAux] at h
  | cons r rest ih =>
    intro k c i h
    cases hr : biAux (k + 1) rest c with
    | some j =>
      simp only [biAux, hr] at h
      have hji : j = i := by simpa using h
      subst hji
      obtain ⟨j', hj', rfl, hkey, hc⟩ := ih (k + 1) c j hr
      exact ⟨j' + 1, by simpa using hj', by omega, by simpa using hkey, hc⟩
    | none =>
      simp only [biAux, hr] at h
      by_cases hcond : (!(pyStrip r.cs).isEmpty && (pyStrip r.cs == c)) = true
      · rw [if_pos hcond] at h
        have hki : k = i := by simpa using h
        subst hki
        simp only [Bool.and_eq_true, Bool.not_eq_true', beq_iff_eq] at hcond
        obtain ⟨hne, hkey⟩ := hcond
        have hne' : pyStrip r.cs ≠ [] := List.isEmpty_eq_false.mp hne
        exact ⟨0, by simp, by omega, by simpa using hkey, by rw [← hkey]; exact hne'⟩
      · rw [if_neg hcond] at h
        cases h

theorem biAux_isSome_of_key :
    ∀ (rows : List Row) (k : Nat) (c : Str) (j : Nat), j < rows.length →
      pyStrip ((rows.getD j default).cs) = c → c ≠ [] →
      (biAux k rows c).isSome := by
  intro rows
  induction rows with
  | nil => intro k c j hj; simp at hj
  | cons r rest ih =>
    intro k c j hj hkey hc
    cases hr : biAux (k + 1) rest c with
    | some i => simp [biAux, hr]
    | none =>
      simp only [biAux, hr]
      cases j with
      | zero =>
        simp only [List.getD_cons_zero] at hkey
        have h1 : (pyStrip r.cs).isEmpty = false := by
          rw [hkey]
          simpa using hc
        simp [h1, hkey, hc]
      | succ j' =>
        exfalso
        have := ih (k + 1) c j' (by simpa using hj) (by simpa using hkey) hc
        rw [hr] at this
        simp at this

theorem biAux_congr :
    ∀ (rows₁ rows₂ : List Row) (k : Nat) (c : Str),
      rows₁.map (fun r => pyStrip r.cs) = rows₂.map (fun r => pyStrip r.cs) →
      biAux k rows₁ c = biAux k rows₂ c := by
  intro rows₁
  induction rows₁ with
  | nil =>
    intro rows₂ k c h
    cases rows₂ with
    | nil => rfl
    | cons r rest => simp at h
  | cons r rest ih =>
    intro rows₂ k c h
    cases rows₂ with
    | nil => simp at h
    | cons r₂ rest₂ =>
      simp only [List.map_cons, List.cons.injEq] at h
      obtain ⟨h1, h2⟩ := h
      simp only [biAux, ih rest₂ (k + 1) c h2, h1]

theorem biAux_append :
    ∀ (A B : List Row) (k : Nat) (c : Str),
      biAux k (A ++ B) c =
        match biAux (k + A.length) B c with
        | some j => some j
        | none => biAux k A c := by
  intro A
  induction A with
  | nil =>
    intro B k c
    simp only [List.nil_append, List.length_nil, Nat.add_zero]
    cases biAux k B c <;> simp [biAux]
  | cons r A ih =>
    intro B k c
    have harith : k + 1 + A.length = k + (A.length + 1) := by omega
    have hih := ih B (k + 1) c
    rw [harith] at hih
    simp only [List.cons_append, biAux, List.length_cons, List.append_eq]
    rw [hih]
    cases hb : biAux (k + (A.length + 1)) B c <;>
      cases ha : biAux (k + 1) A c <;> simp

theorem build_index_append_of_not (A B : List Row) (c : Str)
    (h : ∀ r ∈ B, pyStrip r.cs ≠ c) :
    build_index (A ++ B) c = build_index A c := by
  unfold build_index
  rw [biAux_append]
  cases hb : biAux (0 + A.length) B c with
  | none => rfl
  | some j =>
    obtain ⟨j', hj', _, hkey, _⟩ := biAux_some_spec B _ c j hb
    have hmem : B.getD j' default ∈ B := by
      rw [List.getD_eq_getElem B default hj']
      exact List.getElem_mem hj'
    exact absurd hkey (h _ hmem)

theorem build_index_some_spec {rows : List Row} {c : Str} {i : Nat}
    (h : build_index rows c = some i) :
    i < rows.length ∧ pyStrip ((rows.getD i default).cs) = c ∧ c ≠ [] := by
  obtain ⟨j, hj, hij, hkey, hc⟩ := biAux_some_spec rows 0 c i h
  have : i = j := by omega
  subst this
  exact ⟨hj, hkey, hc⟩

theorem build_index_ne_none_of_key {rows : List Row} {c : Str} {j : Nat}
    (hj : j < rows.length) (hkey : pyStrip ((rows.getD j default).cs) = c)
    (hc : c ≠ []) : build_index rows c ≠ none := by
  have := biAux_isSome_of_key rows 0 c j hj hkey hc
  intro he
  rw [show build_index rows c = biAux 0 rows c from rfl] at he
  rw [he] at this
  simp at this

/-! Structure of the `merge_rows` fold. -/

theorem forall₂_getD {R : Row → Row → Prop} :
    ∀ {as bs : List Row}, List.Forall₂ R as bs → ∀ i, i < as.length →
      R (as.getD i default) (bs.getD i default) := by
  intro as bs h
  induction h with
  | nil => intro i hi; simp at hi
  | cons hab htail ih =>
    intro i hi
    cases i with
    | zero => simpa using hab
    | succ i' => simpa using ih i' (by simpa using hi)

theorem forall₂_set_right {R : Row → Row → Prop} :
    ∀ {as bs : List Row} (i : Nat) (x : Row), List.Forall₂ R as bs →
      i < as.length → R (as.getD i default) x →
      List.Forall₂ R as (bs.set i x) := by
  intro as bs i x h
  induction h generalizing i with
  | nil => intro hi; simp at hi
  | cons hab htail ih =>
    intro hi hx
    cases i with
    | zero =>
      simp only [List.set_cons_zero]
      exact List.Forall₂.cons (by simpa using hx) htail
    | succ i' =>
      simp only [List.set_cons_succ]
      exact List.Forall₂.cons hab (ih i' (by simpa using hi) (by simpa using hx))

theorem mergeFold_shape (existing : List Row) (fill : Bool) (big : List CsEntry) :
    ∀ cs : List CsEntry, (∀ e ∈ cs, e ∈ big) →
    ∀ E A : List Row, E.length = existing.length →
    List.Forall₂ (RelRows big) existing E →
    ∃ E', E'.length = existing.length ∧ List.Forall₂ (RelRows big) existing E' ∧
      cs.foldl (mergeStep (build_index existing) fill) (E ++ A) =
        E' ++ A ++ (if fill then []
          else (cs.filter (fun e => (build_index existing e.1).isNone)).map entryRow) := by
  intro cs
  induction cs with
  | nil =>
    intro _ E A hlen hrel
    exact ⟨E, hlen, hrel, by simp⟩
  | cons e cs ih =>
    intro hsub E A hlen hrel
    simp only [List.foldl_cons]
    cases hidx : build_index existing e.1 with
    | some i =>
      obtain ⟨hi, hkey, hc⟩ := build_index_some_spec hidx
      have hiE : i < E.length := by omega
      have hpair := forall₂_getD hrel i hi
      obtain ⟨hcs, hbc, hbn, hst, htit, hmean⟩ := hpair
      have hane : (existing.getD i default).cs ≠ [] := by
        apply ne_nil_of_pyStrip_ne_nil
        rw [hkey]
        exact hc
      have hbne : (E.getD i default).cs.isEmpty = false := by
        rw [hcs]
        simpa using hane
      have hrelE : RelRows big (existing.getD i default)
          (updateRow (E.getD i default) e) := by
        set a := existing.getD i default with ha
        set b := E.getD i default with hb
        refine ⟨?_, ?_, ?_, ?_, ?_, ?_⟩
        · simp only [updateRow]
          rw [hbne]
          simpa using hcs
        · exact hbc
        · exact hbn
        · exact hst
        · by_cases hbt : b.title.isEmpty = true
          · have hbt' : b.title = [] := by simpa using hbt
            have hat : a.title = [] := by
              rcases htit with h | h
              · rw [← h, hbt']
              · exact h.1
            refine Or.inr ⟨hat, ⟨e, hsub e (by simp), ?_⟩⟩
            simp only [updateRow]
            rw [hbt]
            simp
          · have hup : (updateRow b e).title = b.title := by
              simp only [updateRow]
              rw [eq_false_of_ne_true hbt]
              simp
            rw [hup]
            rcases htit with h | h
            · exact Or.inl h
            · exact Or.inr ⟨h.1, h.2⟩
        · by_cases hbm : b.meaning.isEmpty = true
          · have hbm' : b.meaning = [] := by simpa using hbm
            have ham : a.meaning = [] := by
              rcases hmean with h | h
              · rw [← h, hbm']
              · exact h.1
            refine Or.inr ⟨ham, ⟨e, hsub e (by simp), ?_⟩⟩
            simp only [updateRow]
            rw [hbm]
            simp
          · have hup : (updateRow b e).meaning = b.meaning := by
              simp only [updateRow]
              rw [eq_false_of_ne_true hbm]
              simp
            rw [hup]
            rcases hmean with h | h
            · exact Or.inl h
            · exact Or.inr ⟨h.1, h.2⟩
      have hstep : mergeStep (build_index existing) fill (E ++ A) e =
          E.set i (updateRow (E.getD i default) e) ++ A := by
        simp only [mergeStep, hidx]
        rw [List.getD_append E A default i hiE, List.set_append_left i _ hiE]
      rw [hstep]
      obtain ⟨E', hlen', hrel', hfold⟩ :=
        ih (fun x hx => hsub x (by simp [hx]))
          (E.set i (updateRow (E.getD i default) e)) A (by simp [hlen])
          (forall₂_set_right i _ hrel hi hrelE)
      refine ⟨E', hlen', hrel', ?_⟩
      rw [hfold]
      simp [hidx]
    | none =>
      have hstep : mergeStep (build_index existing) fill (E ++ A) e =
          if fill then E ++ A else E ++ (A ++ [entryRow e]) := by
        simp only [mergeStep, hidx]
        cases fill <;> simp
      rw [hstep]
      cases fill with
      | true =>
        obtain ⟨E', h1, h2, h3⟩ := ih (fun x hx => hsub x (by simp [hx])) E A hlen hrel
        exact ⟨E', h1, h2, h3⟩
      | false =>
        obtain ⟨E', h1, h2, h3⟩ :=
          ih (fun x hx => hsub x (by simp [hx])) E (A ++ [entryRow e]) hlen hrel
        refine ⟨E', h1, h2, ?_⟩
        rw [if_neg (by simp)] at h3 ⊢
        rw [h3]
        simp [hidx]

theorem merge_rows_shape (existing : List Row) (cs : List CsEntry) (fill : Bool) :
    ∃ E', E'.length = existing.length ∧ List.Forall₂ (RelRows cs) existing E' ∧
      merge_rows existing cs fill = E' ++ appendedRows existing cs fill := by
  have h := mergeFold_shape existing fill cs cs (fun _ he => he) existing [] rfl
    (List.forall₂_same.mpr (fun r _ => ⟨rfl, rfl, rfl, rfl, Or.inl rfl, Or.inl rfl⟩))
  obtain ⟨E', h1, h2, h3⟩ := h
  refine ⟨E', h1, h2, ?_⟩
  rw [merge_rows]
  rw [show existing ++ ([] : List Row) = existing by simp] at h3
  rw [h3, appendedRows]
  simp

theorem nodup_count_le_one : ∀ {l : List Str}, l.Nodup → ∀ c : Str, l.count c ≤ 1 := by
  intro l h c
  induction l with
  | nil => simp
  | cons a as ih =>
    rw [List.count_cons]
    rcases List.nodup_cons.mp h with ⟨hna, hnd⟩
    by_cases hac : a = c
    · subst hac
      have hz : as.count a = 0 := List.count_eq_zero.mpr hna
      simp [hz]
    · have : (a == c) = false := by simpa using hac
      simp only [this, Bool.false_eq_true, if_false, Nat.add_zero]
      exact ih hnd

theorem forall₂_rel_map_cs {cs : List CsEntry} :
    ∀ {as bs : List Row}, List.Forall₂ (RelRows cs) as bs →
      bs.map Row.cs = as.map Row.cs := by
  intro as bs h
  induction h with
  | nil => rfl
  | cons hab _ ih =>
    simp only [List.map_cons, ih, List.cons.injEq]
    exact ⟨hab.1, trivial⟩

theorem appendedRows_map_cs (existing : List Row) (cs : List CsEntry) (fill : Bool) :
    (appendedRows existing cs fill).map Row.cs =
      if fill then []
      else (cs.filter (fun e => (build_index existing e.1).isNone)).map (fun e => e.1) := by
  cases fill <;> simp [appendedRows, entryRow, Function.comp]

/-- Claim C4 amended: when the existing rows carry each non-empty SourceCode at
most once and the filtered entries carry pairwise distinct, whitespace-trimmed
codes, `merge_rows` keeps every non-empty SourceCode in at most one row. -/
theorem merge_rows_unique_codes (existing : List Row) (cs : List CsEntry)
    (fill : Bool)
    (huniq : ∀ c : Str, c ≠ [] → (existing.map Row.cs).count c ≤ 1)
    (htrim : ∀ e ∈ cs, pyStrip e.1 = e.1)
    (hnd : (cs.map (fun e => e.1)).Nodup) :
    ∀ c : Str, c ≠ [] → ((merge_rows existing cs fill).map Row.cs).count c ≤ 1 := by
  intro c hc
  obtain ⟨E', hlen, hrel, heq⟩ := merge_rows_shape existing cs fill
  rw [heq, List.map_append, List.count_append, forall₂_rel_map_cs hrel,
    appendedRows_map_cs]
  have hsubl : List.Sublist ((cs.filter (fun e => (build_index existing e.1).isNone)).map
      (fun e => e.1)) (cs.map (fun e => e.1)) :=
    List.Sublist.map _ (List.filter_sublist cs)
  have hndA : ((cs.filter (fun e => (build_index existing e.1).isNone)).map
      (fun e => e.1)).Nodup := List.Nodup.sublist hsubl hnd
  have hA : ((cs.filter (fun e => (build_index existing e.1).isNone)).map
      (fun e => e.1)).count c ≤ 1 := nodup_count_le_one hndA c
  by_cases hex : (existing.map Row.cs).count c = 0
  · cases fill
    · simp [hex]
      omega
    · simp [hex]
  · have hex1 : 0 < (existing.map Row.cs).count c := Nat.pos_of_ne_zero hex
    have hmem : c ∈ existing.map Row.cs := List.count_pos_iff.mp hex1
    have hAzero : ((cs.filter (fun e => (build_index existing e.1).isNone)).map
        (fun e => e.1)).count c = 0 := by
      by_contra hA0
      have hA1 : 0 < _ := Nat.pos_of_ne_zero hA0
      have hmemA : c ∈ (cs.filter (fun e => (build_index existing e.1).isNone)).map
          (fun e => e.1) := List.count_pos_iff.mp hA1
      obtain ⟨e, hef, hec⟩ := List.mem_map.mp hmemA
      have hecs : e ∈ cs := (List.mem_filter.mp hef).1
      have hmiss : (build_index existing e.1).isNone = true := (List.mem_filter.mp hef).2
      have hnone : build_index existing c = none := by
        rw [← hec]
        exact Option.isNone_iff_eq_none.mp hmiss
      obtain ⟨r, hrmem, hrc⟩ := List.mem_map.mp hmem
      obtain ⟨j, hj, hrj⟩ := List.mem_iff_getElem.mp hrmem
      have hkey : pyStrip ((existing.getD j default).cs) = c := by
        rw [List.getD_eq_getElem existing default hj, hrj, hrc, ← hec]
        exact htrim e hecs
      exact build_index_ne_none_of_key hj hkey hc hnone
    have hexle := huniq c hc
    cases fill <;> simp [hAzero] <;> omega

/-- Witness for the amended C4 on concrete distinct trimmed codes. -/
theorem merge_rows_unique_codes_witness :
    ((merge_rows []
        [(S "CS0001", S "T", S "M"), (S "CS0002", S "U", S "N")] false).map
        Row.cs).count (S "CS0001") ≤ 1 :=
  merge_rows_unique_codes []
    [(S "CS0001", S "T", S "M"), (S "CS0002", S "U", S "N")] false
    (fun c _ => by simp) (by decide) (by decide) (S "CS0001") (by decide)

/-! Claim C5. -/

/-- Claim C5: for rows of the existing table, `merge_rows` never changes
SourceCode or the three target-side fields, never overwrites a non-empty Title
or Meaning, and a matched single entry updates exactly its indexed row in place
via the fill-if-empty rule. -/
theorem merge_rows_inplace_update :
    (∀ (existing : List Row) (cs : List CsEntry) (fill : Bool) (i : Nat),
      i < existing.length →
      ((merge_rows existing cs fill).getD i default).cs = (existing.getD i default).cs ∧
      ((merge_rows existing cs fill).getD i default).bcode = (existing.getD i default).bcode ∧
      ((merge_rows existing cs fill).getD i default).bname = (existing.getD i default).bname ∧
      ((merge_rows existing cs fill).getD i default).status = (existing.getD i default).status ∧
      ((existing.getD i default).title ≠ [] →
        ((merge_rows existing cs fill).getD i default).title = (existing.getD i default).title) ∧
      ((existing.getD i default).meaning ≠ [] →
        ((merge_rows existing cs fill).getD i default).meaning = (existing.getD i default).meaning)) ∧
    (∀ (existing : List Row) (e : CsEntry) (fill : Bool) (i : Nat),
      build_index existing e.1 = some i →
      merge_rows existing [e] fill =
        existing.set i (updateRow (existing.getD i default) e)) := by
  constructor
  · intro existing cs fill i hi
    obtain ⟨E', hlen, hrel, heq⟩ := merge_rows_shape existing cs fill
    have hiE : i < E'.length := by omega
    have hgetD : (merge_rows existing cs fill).getD i default = E'.getD i default := by
      rw [heq]
      exact List.getD_append E' _ default i hiE
    rw [hgetD]
    obtain ⟨hcs, hbc, hbn, hst, htit, hmean⟩ := forall₂_getD hrel i hi
    refine ⟨hcs, hbc, hbn, hst, ?_, ?_⟩
    · intro hne
      rcases htit with h | h
      · exact h
      · exact absurd h.1 hne
    · intro hne
      rcases hmean with h | h
      · exact h
      · exact absurd h.1 hne
  · intro existing e fill i h
    simp [merge_rows, mergeStep, h]

/-- Witness for C5 on a concrete matched row, filling the empty Title only. -/
theorem merge_rows_inplace_update_witness :
    (((merge_rows [⟨S "CS0001", [], S "m0", S "b", S "n", S "st"⟩]
        [(S "CS0001", S "T", S "M")] false).getD 0 default).cs =
      (([⟨S "CS0001", [], S "m0", S "b", S "n", S "st"⟩] : List Row).getD 0 default).cs ∧
     ((merge_rows [⟨S "CS0001", [], S "m0", S "b", S "n", S "st"⟩]
        [(S "CS0001", S "T", S "M")] false).getD 0 default).bcode =
      (([⟨S "CS0001", [], S "m0", S "b", S "n", S "st"⟩] : List Row).getD 0 default).bcode ∧
     ((merge_rows [⟨S "CS0001", [], S "m0", S "b", S "n", S "st"⟩]
        [(S "CS0001", S "T", S "M")] false).getD 0 default).bname =
      (([⟨S "CS0001", [], S "m0", S "b", S "n", S "st"⟩] : List Row).getD 0 default).bname ∧
     ((merge_rows [⟨S "CS0001", [], S "m0", S "b", S "n", S "st"⟩]
        [(S "CS0001", S "T", S "M")] false).getD 0 default).status =
      (([⟨S "CS0001", [], S "m0", S "b", S "n", S "st"⟩] : List Row).getD 0 default).status ∧
     ((([⟨S "CS0001", [], S "m0", S "b", S "n", S "st"⟩] : List Row).getD 0 default).title ≠ [] →
       ((merge_rows [⟨S "CS0001", [], S "m0", S "b", S "n", S "st"⟩]
          [(S "CS0001", S "T", S "M")] false).getD 0 default).title =
        (([⟨S "CS0001", [], S "m0", S "b", S "n", S "st"⟩] : List Row).getD 0 default).title) ∧
     ((([⟨S "CS0001", [], S "m0", S "b", S "n", S "st"⟩] : List Row).getD 0 default).meaning ≠ [] →
       ((merge_rows [⟨S "CS0001", [], S "m0", S "b", S "n", S "st"⟩]
          [(S "CS0001", S "T", S "M")] false).getD 0 default).meaning =
        (([⟨S "CS0001", [], S "m0", S "b", S "n", S "st"⟩] : List Row).getD 0 default).meaning)) ∧
    merge_rows [⟨S "CS0001", [], S "m0", S "b", S "n", S "st"⟩]
        [(S "CS0001", S "T", S "M")] false =
      ([⟨S "CS0001", [], S "m0", S "b", S "n", S "st"⟩] : List Row).set 0
        (updateRow (([⟨S "CS0001", [], S "m0", S "b", S "n", S "st"⟩] : List Row).getD 0 default)
          (S "CS0001", S "T", S "M")) :=
  ⟨merge_rows_inplace_update.1 [⟨S "CS0001", [], S "m0", S "b", S "n", S "st"⟩]
      [(S "CS0001", S "T", S "M")] false 0 (by decide),
   merge_rows_inplace_update.2 [⟨S "CS0001", [], S "m0", S "b", S "n", S "st"⟩]
      (S "CS0001", S "T", S "M") false 0 (by decide)⟩

/-! Idempotence of stripping and cleanliness of parsed cells. -/

theorem dropWhile_cons_eq_self {p : Char → Bool} {c : Char} {l : Str}
    (h : List.dropWhile p (c :: l) = c :: l) : p c = false := by
  by_cases hc : p c = true
  · exfalso
    rw [List.dropWhile_cons_of_pos hc] at h
    have hle := dropWhile_length_le (p := p) l
    have : (List.dropWhile p l).length = (c :: l).length := by rw [h]
    simp at this
    omega
  · simpa using hc

theorem pyLstrip_idem (s : Str) : pyLstrip (pyLstrip s) = pyLstrip s := by
  unfold pyLstrip
  cases hs : s.dropWhile isPySpace with
  | nil => simp
  | cons c rest =>
    have hc := dropWhile_head_not _ c rest hs
    simp [List.dropWhile_cons_of_neg (by simp [hc] : ¬ isPySpace c = true)]

theorem pyRstrip_pyLstrip_of_rstripped {y : Str} (hy : pyRstrip y = y) :
    pyRstrip (pyLstrip y) = pyLstrip y := by
  have hrev : y.reverse.dropWhile isPySpace = y.reverse := by
    have := congrArg List.reverse hy
    rw [pyRstrip] at this
    simpa using this
  have hdecomp : y.reverse = (pyLstrip y).reverse ++ (y.takeWhile isPySpace).reverse := by
    conv_lhs => rw [← List.takeWhile_append_dropWhile (p := isPySpace) (l := y)]
    rw [List.reverse_append]
    rfl
  cases hw : (pyLstrip y).reverse with
  | nil =>
    have hnil : pyLstrip y = [] := by simpa using congrArg List.reverse hw
    rw [hnil]
    rfl
  | cons a w₀ =>
    have hrev' : List.dropWhile isPySpace
        (a :: (w₀ ++ (y.takeWhile isPySpace).reverse)) =
        a :: (w₀ ++ (y.takeWhile isPySpace).reverse) := by
      have h := hrev
      rw [hdecomp, hw] at h
      simpa using h
    have ha : isPySpace a = false := dropWhile_cons_eq_self hrev'
    rw [pyRstrip, hw, List.dropWhile_cons_of_neg (by simp [ha])]
    have h2 := congrArg List.reverse hw
    simp only [List.reverse_reverse] at h2
    exact h2.symm

theorem pyStrip_idem (s : Str) : pyStrip (pyStrip s) = pyStrip s := by
  have h1 : pyStrip s = pyLstrip (pyRstrip s) := rfl
  rw [h1, pyStrip, pyRstrip_pyLstrip_of_rstripped (pyRstrip_idem s), pyLstrip_idem]

theorem mem_pyRstrip_sub {c : Char} {s : Str} (h : c ∈ pyRstrip s) : c ∈ s := by
  rw [pyRstrip] at h
  rw [List.mem_reverse] at h
  have := (List.dropWhile_sublist (l := s.reverse) isPySpace).subset h
  simpa using this

theorem mem_pyStrip_sub {c : Char} {s : Str} (h : c ∈ pyStrip s) : c ∈ s := by
  rw [pyStrip, pyLstrip] at h
  exact mem_pyRstrip_sub ((List.dropWhile_sublist (l := pyRstrip s) isPySpace).subset h)

theorem pySplit_ne_nil (sep : Char) : ∀ s : Str, pySplit sep s ≠ [] := by
  intro s
  cases s with
  | nil => simp [pySplit]
  | cons c rest =>
    by_cases hc : (c == sep) = true
    · simp [pySplit, hc]
    · simp only [pySplit, hc, Bool.false_eq_true, if_false]
      cases hr : pySplit sep rest with
      | nil => simp
      | cons h t => simp

theorem pySplit_sep_not_mem (sep : Char) :
    ∀ (s : Str) (seg : Str), seg ∈ pySplit sep s → sep ∉ seg := by
  intro s
  induction s with
  | nil =>
    intro seg hseg
    simp [pySplit] at hseg
    simp [hseg]
  | cons c rest ih =>
    intro seg hseg
    by_cases hc : (c == sep) = true
    · simp only [pySplit, hc, if_true, List.mem_cons] at hseg
      rcases hseg with rfl | hseg
      · simp
      · exact ih seg hseg
    · simp only [pySplit, hc, Bool.false_eq_true, if_false] at hseg
      cases hr : pySplit sep rest with
      | nil => exact absurd hr (pySplit_ne_nil sep rest)
      | cons h t =>
        rw [hr] at hseg
        simp only [List.mem_cons] at hseg
        rcases hseg with rfl | hseg
        · intro hmem
          rcases List.mem_cons.mp hmem with rfl | hmem
          · simp at hc
          · exact ih h (by rw [hr]; simp) hmem
        · exact ih seg (by rw [hr]; simp [hseg])

theorem mem_pySplit_sub (sep : Char) :
    ∀ (s seg : Str) (c : Char), seg ∈ pySplit sep s → c ∈ seg → c ∈ s := by
  intro s
  induction s with
  | nil =>
    intro seg c hseg hc
    simp [pySplit] at hseg
    rw [hseg] at hc
    simp at hc
  | cons a rest ih =>
    intro seg c hseg hc
    by_cases ha : (a == sep) = true
    · simp only [pySplit, ha, if_true, List.mem_cons] at hseg
      rcases hseg with rfl | hseg
      · simp at hc
      · exact List.mem_cons_of_mem a (ih seg c hseg hc)
    · simp only [pySplit, ha, Bool.false_eq_true, if_false] at hseg
      cases hr : pySplit sep rest with
      | nil => exact absurd hr (pySplit_ne_nil sep rest)
      | cons h t =>
        rw [hr] at hseg
        simp only [List.mem_cons] at hseg
        rcases hseg with rfl | hseg
        · rcases List.mem_cons.mp hc with rfl | hc
          · simp
          · exact List.mem_cons_of_mem a (ih h c (by rw [hr]; simp) hc)
        · exact List.mem_cons_of_mem a (ih seg c (by rw [hr]; simp [hseg]) hc)

theorem cellsOfLine_clean (line : Str) : ∀ cell ∈ cellsOfLine line, CleanCell cell := by
  intro cell hcell
  rw [cellsOfLine] at hcell
  obtain ⟨seg, hseg, rfl⟩ := List.mem_map.mp hcell
  constructor
  · exact pyStrip_idem seg
  · intro ch hch hchpipe
    subst hchpipe
    exact pySplit_sep_not_mem '|' _ seg hseg (mem_pyStrip_sub hch)

theorem CleanCell_nil : CleanCell [] := ⟨rfl, by simp⟩

theorem getD_cell_clean {cells : List Str} (h : ∀ cell ∈ cells, CleanCell cell)
    (k : Nat) : CleanCell (cells.getD k []) := by
  by_cases hk : k < cells.length
  · rw [List.getD_eq_getElem cells [] hk]
    exact h _ (List.getElem_mem hk)
  · rw [List.getD_eq_default cells [] (by omega)]
    exact CleanCell_nil

theorem rowOfLine_clean (line : Str) :
    CleanCell (rowOfLine line).cs ∧ CleanCell (rowOfLine line).title ∧
    CleanCell (rowOfLine line).meaning ∧ CleanCell (rowOfLine line).bcode ∧
    CleanCell (rowOfLine line).bname ∧ CleanCell (rowOfLine line).status := by
  have h := cellsOfLine_clean line
  exact ⟨getD_cell_clean h 0, getD_cell_clean h 1, getD_cell_clean h 2,
    getD_cell_clean h 3, getD_cell_clean h 4, getD_cell_clean h 5⟩

/-! Formatting lemmas and the parse/format round trip. -/

theorem pyStrip_format (r : Row) : pyStrip (format_row r) = format_row r := by
  have hform : format_row r =
      ('|' :: (' ' :: joinCells [r.cs, r.title, r.meaning, r.bcode, r.bname,
        r.status] ++ [' '])) ++ ['|'] := by
    simp [format_row, S]
  rw [hform, pyStrip, pyRstrip_snoc_of_not (by decide), List.cons_append,
    pyLstrip_cons_of_not (by decide)]

theorem stripPipes_wrap (m : Str) :
    stripPipes (('|' :: (' ' :: m ++ [' '])) ++ ['|']) = ' ' :: m ++ [' '] := by
  unfold stripPipes
  have h1 : ('|' :: (' ' :: m ++ [' '])) ++ ['|'] =
      '|' :: ' ' :: ((m ++ [' ']) ++ ['|']) := by simp
  rw [h1, List.dropWhile_cons_of_pos (by simp), List.dropWhile_cons_of_neg (by simp)]
  have h2 : (' ' :: ((m ++ [' ']) ++ ['|'])).reverse =
      '|' :: ' ' :: (m.reverse ++ [' ']) := by simp
  rw [h2, List.dropWhile_cons_of_pos (by simp), List.dropWhile_cons_of_neg (by simp)]
  simp

theorem pyStrip_pad {s : Str} (h : pyStrip s = s) :
    pyStrip (' ' :: s ++ [' ']) = s := by
  obtain ⟨hl, hr⟩ := pyStrip_self s h
  by_cases hnil : s = []
  · subst hnil
    decide
  · have hsp : isPySpace ' ' = true := by decide
    have h1 : pyRstrip ((' ' :: s) ++ [' ']) = pyRstrip (' ' :: s) :=
      pyRstrip_snoc_of_space hsp _
    have h2 : pyRstrip (' ' :: s) = ' ' :: s := by
      have h3 : pyRstrip ([' '] ++ s) = [' '] ++ pyRstrip s :=
        pyRstrip_append_of_ne_nil [' '] s (by rw [hr]; exact hnil)
      rw [hr] at h3
      simpa using h3
    rw [show (' ' :: s ++ [' ']) = (' ' :: s) ++ [' '] from by simp, pyStrip, h1,
      h2, pyLstrip_cons_of_space hsp, hl]

theorem pySplit_no_sep (sep : Char) :
    ∀ a : Str, (∀ ch ∈ a, ch ≠ sep) → pySplit sep a = [a] := by
  intro a
  induction a with
  | nil => intro _; rfl
  | cons c rest ih =>
    intro h
    have hc : (c == sep) = false := by simpa using h c (by simp)
    simp only [pySplit, hc, Bool.false_eq_true, if_false]
    rw [ih (fun ch hch => h ch (by simp [hch]))]

theorem pySplit_append_sep (sep : Char) :
    ∀ a rest : Str, (∀ ch ∈ a, ch ≠ sep) →
      pySplit sep (a ++ sep :: rest) = a :: pySplit sep rest := by
  intro a
  induction a with
  | nil =>
    intro rest _
    simp [pySplit]
  | cons c a ih =>
    intro rest h
    have hc : (c == sep) = false := by simpa using h c (by simp)
    simp only [List.cons_append, pySplit, hc, Bool.false_eq_true, if_false,
      List.append_eq]
    rw [ih rest (fun ch hch => h ch (by simp [hch]))]

theorem pad_cell_pipe_free {c : Str} (h : ∀ ch ∈ c, ch ≠ '|') :
    ∀ ch ∈ (' ' :: c ++ [' ']), ch ≠ '|' := by
  intro ch hch
  rcases List.mem_cons.mp hch with rfl | hch
  · simp
  · rcases List.mem_append.mp hch with hch | hch
    · exact h ch hch
    · simp at hch
      subst hch
      simp

theorem pySplit_join_cells :
    ∀ cells : List Str, cells ≠ [] → (∀ cell ∈ cells, ∀ ch ∈ cell, ch ≠ '|') →
      pySplit '|' (' ' :: joinCells cells ++ [' ']) =
        cells.map (fun cell => ' ' :: cell ++ [' ']) := by
  intro cells
  induction cells with
  | nil => intro h; exact absurd rfl h
  | cons c cs ih =>
    intro _ hfree
    cases cs with
    | nil =>
      rw [show joinCells [c] = c from rfl,
        pySplit_no_sep '|' _ (pad_cell_pipe_free (hfree c (by simp)))]
      simp
    | cons c₂ cs₂ =>
      have hshape : ' ' :: joinCells (c :: c₂ :: cs₂) ++ [' '] =
          (' ' :: c ++ [' ']) ++ '|' :: (' ' :: joinCells (c₂ :: cs₂) ++ [' ']) := by
        rw [show joinCells (c :: c₂ :: cs₂) = c ++ S " | " ++ joinCells (c₂ :: cs₂)
          from rfl]
        simp [S]
      rw [hshape,
        pySplit_append_sep '|' _ _ (pad_cell_pipe_free (hfree c (by simp))),
        ih (by simp) (fun cell hc => hfree cell (by simp [hc]))]
      simp

theorem rowOfLine_format (r : Row)
    (h : CleanCell r.cs ∧ CleanCell r.title ∧ CleanCell r.meaning ∧
      CleanCell r.bcode ∧ CleanCell r.bname ∧ CleanCell r.status) :
    rowOfLine (format_row r) = r ∧
    cellsOfLine (format_row r) =
      [r.cs, r.title, r.meaning, r.bcode, r.bname, r.status] := by
  obtain ⟨h1, h2, h3, h4, h5, h6⟩ := h
  have hfree : ∀ cell ∈ [r.cs, r.title, r.meaning, r.bcode, r.bname, r.status],
      ∀ ch ∈ cell, ch ≠ '|' := by
    intro cell hcell
    simp only [List.mem_cons, List.not_mem_nil, or_false] at hcell
    rcases hcell with rfl | rfl | rfl | rfl | rfl | rfl
    · exact h1.2
    · exact h2.2
    · exact h3.2
    · exact h4.2
    · exact h5.2
    · exact h6.2
  have hcells : cellsOfLine (format_row r) =
      [r.cs, r.title, r.meaning, r.bcode, r.bname, r.status] := by
    rw [cellsOfLine, pyStrip_format]
    have hform : format_row r =
        ('|' :: (' ' :: joinCells [r.cs, r.title, r.meaning, r.bcode, r.bname,
          r.status] ++ [' '])) ++ ['|'] := by
      simp [format_row, S]
    rw [hform, stripPipes_wrap, pySplit_join_cells _ (by simp) hfree]
    simp only [List.map_map, List.map_cons, List.map_nil, Function.comp]
    rw [pyStrip_pad h1.1, pyStrip_pad h2.1, pyStrip_pad h3.1, pyStrip_pad h4.1,
      pyStrip_pad h5.1, pyStrip_pad h6.1]
  refine ⟨?_, hcells⟩
  rw [rowOfLine, hcells]
  cases r
  rfl

/-! Claim C9. -/

/-- Claim C9: for a valid table data line with at most 6 cells, parsing the line
into a `Row` and formatting that `Row` reproduces the original trimmed cell
content padded to exactly 6 cells, and re-parsing the formatted line gives the
same `Row` back. -/
theorem parse_format_round_trip (line : Str)
    (_hvalid : isDataLine line = true)
    (hlen : (pySplit '|' (stripPipes (pyStrip line))).length ≤ 6) :
    rowOfLine (format_row (rowOfLine line)) = rowOfLine line ∧
    cellsOfLine (format_row (rowOfLine line)) =
      cellsOfLine line ++ List.replicate (6 - (cellsOfLine line).length) [] := by
  obtain ⟨hrt, hcells⟩ := rowOfLine_format (rowOfLine line) (rowOfLine_clean line)
  refine ⟨hrt, ?_⟩
  rw [hcells]
  have hclen : (cellsOfLine line).length ≤ 6 := by
    rw [cellsOfLine]
    simpa using hlen
  have hcne : cellsOfLine line ≠ [] := by
    rw [cellsOfLine]
    intro he
    exact pySplit_ne_nil '|' _ (by simpa using he)
  show [(cellsOfLine line).getD 0 [], (cellsOfLine line).getD 1 [],
      (cellsOfLine line).getD 2 [], (cellsOfLine line).getD 3 [],
      (cellsOfLine line).getD 4 [], (cellsOfLine line).getD 5 []] =
    cellsOfLine line ++ List.replicate (6 - (cellsOfLine line).length) []
  rcases hcl : cellsOfLine line with _ | ⟨a, _ | ⟨b, _ | ⟨c, _ | ⟨d, _ | ⟨e, _ | ⟨f, rest⟩⟩⟩⟩⟩⟩
  · exact absurd hcl hcne
  · rfl
  · rfl
  · rfl
  · rfl
  · rfl
  · cases rest with
    | nil => rfl
    | cons g rest₂ =>
      rw [hcl] at hclen
      simp at hclen

/-- Witness for C9 on a concrete three-cell line. -/
theorem parse_format_round_trip_witness :
    rowOfLine (format_row (rowOfLine (S "| CS0001 | a title |"))) =
      rowOfLine (S "| CS0001 | a title |") ∧
    cellsOfLine (format_row (rowOfLine (S "| CS0001 | a title |"))) =
      cellsOfLine (S "| CS0001 | a title |") ++
        List.replicate (6 - (cellsOfLine (S "| CS0001 | a title |")).length) [] :=
  parse_format_round_trip (S "| CS0001 | a title |") (by decide) (by decide)

/-! Splitlines and join lemmas for the pipeline round trip. -/

theorem slAux_mem_noBreak :
    ∀ (s acc : List Char) (sw : Bool), (∀ c ∈ acc, isLineBreak c = false) →
      ∀ l ∈ slAux s acc sw, ∀ c ∈ l, isLineBreak c = false := by
  intro s
  induction s with
  | nil =>
    intro acc sw hacc l hl
    simp only [slAux] at hl
    by_cases he : acc.isEmpty = true
    · rw [if_pos he] at hl
      simp at hl
    · rw [if_neg he] at hl
      simp only [List.mem_singleton] at hl
      subst hl
      intro c hc
      exact hacc c (by simpa using hc)
  | cons a rest ih =>
    intro acc sw hacc l hl
    simp only [slAux] at hl
    by_cases h1 : (sw && (a == '\n')) = true
    · rw [if_pos h1] at hl
      exact ih [] false (by simp) l hl
    · rw [if_neg h1] at hl
      by_cases h2 : (a == '\r') = true
      · rw [if_pos h2] at hl
        rcases List.mem_cons.mp hl with rfl | hl
        · intro c hc
          exact hacc c (by simpa using hc)
        · exact ih [] true (by simp) l hl
      · rw [if_neg h2] at hl
        by_cases h3 : isLineBreak a = true
        · rw [if_pos h3] at hl
          rcases List.mem_cons.mp hl with rfl | hl
          · intro c hc
            exact hacc c (by simpa using hc)
          · exact ih [] false (by simp) l hl
        · rw [if_neg h3] at hl
          refine ih (a :: acc) false ?_ l hl
          intro c hc
          rcases List.mem_cons.mp hc with rfl | hc
          · simpa using h3
          · exact hacc c hc

theorem pySplitlines_noBreak (s : Str) :
    ∀ l ∈ pySplitlines s, ∀ c ∈ l, isLineBreak c = false :=
  slAux_mem_noBreak s [] false (by simp)

theorem slAux_append_newline :
    ∀ (l : Str) (rest : List Char) (acc : List Char),
      (∀ c ∈ l, isLineBreak c = false) →
      slAux (l ++ '\n' :: rest) acc false = (acc.reverse ++ l) :: slAux rest [] false := by
  intro l
  induction l with
  | nil =>
    intro rest acc _
    simp [slAux, isLineBreak]
  | cons a l ih =>
    intro rest acc h
    have ha : isLineBreak a = false := h a (by simp)
    have har : (a == '\r') = false := by
      by_contra hx
      have : a = '\r' := by simpa using eq_true_of_ne_false hx
      subst this
      simp [isLineBreak] at ha
    simp only [List.cons_append, slAux, Bool.false_and, Bool.false_eq_true,
      if_false, har, ha, List.append_eq]
    rw [ih rest (a :: acc) (fun c hc => h c (by simp [hc]))]
    simp

theorem slAux_noBreak_end :
    ∀ (l : Str) (acc : List Char), (∀ c ∈ l, isLineBreak c = false) →
      slAux l acc false =
        if acc.reverse ++ l = [] then [] else [acc.reverse ++ l] := by
  intro l
  induction l with
  | nil =>
    intro acc _
    simp only [slAux, List.append_nil]
    by_cases he : acc.isEmpty = true
    · rw [if_pos he]
      have : acc = [] := by simpa using he
      simp [this]
    · rw [if_neg he]
      have : acc ≠ [] := by simpa using he
      rw [if_neg (by simpa using this)]
  | cons a l ih =>
    intro acc h
    have ha : isLineBreak a = false := h a (by simp)
    have har : (a == '\r') = false := by
      by_contra hx
      have : a = '\r' := by simpa using eq_true_of_ne_false hx
      subst this
      simp [isLineBreak] at ha
    simp only [slAux, Bool.false_and, Bool.false_eq_true, if_false, har, ha]
    rw [ih (a :: acc) (fun c hc => h c (by simp [hc]))]
    simp

theorem pySplitlines_join :
    ∀ L : List Str, L ≠ [] → (∀ l ∈ L, ∀ c ∈ l, isLineBreak c = false) →
      pySplitlines (joinLines L ++ ['\n']) = L := by
  intro L
  induction L with
  | nil => intro h; exact absurd rfl h
  | cons l ls ih =>
    intro _ hfree
    cases ls with
    | nil =>
      rw [show joinLines [l] = l from rfl, pySplitlines,
        slAux_append_newline l [] [] (hfree l (by simp))]
      simp [slAux]
    | cons l₂ t =>
      have hjoin : joinLines (l :: l₂ :: t) ++ ['\n'] =
          l ++ '\n' :: (joinLines (l₂ :: t) ++ ['\n']) := by
        rw [show joinLines (l :: l₂ :: t) = l ++ '\n' :: joinLines (l₂ :: t) from rfl]
        simp
      rw [pySplitlines, hjoin, slAux_append_newline l _ [] (hfree l (by simp))]
      rw [show slAux (joinLines (l₂ :: t) ++ ['\n']) [] false =
        pySplitlines (joinLines (l₂ :: t) ++ ['\n']) from rfl]
      rw [ih (by simp) (fun x hx => hfree x (by simp [hx]))]
      simp

theorem joinLines_cons (l : Str) (ls : List Str) (h : ls ≠ []) :
    joinLines (l :: ls) = l ++ '\n' :: joinLines ls := by
  cases ls with
  | nil => exact absurd rfl h
  | cons a t => rfl

theorem joinLines_snoc :
    ∀ (A : List Str) (x : Str),
      joinLines (A ++ [x]) = if A = [] then x else joinLines A ++ '\n' :: x := by
  intro A
  induction A with
  | nil => intro x; simp [joinLines]
  | cons a A ih =>
    intro x
    rw [if_neg (by simp)]
    cases A with
    | nil => simp [joinLines]
    | cons b B =>
      rw [List.cons_append, joinLines_cons a ((b :: B) ++ [x]) (by simp),
        joinLines_cons a (b :: B) (by simp), ih x, if_neg (by simp)]
      simp

theorem pyRstrip_joinLines_last :
    ∀ (Q : List Str) (d : Str), pyRstrip d ≠ [] →
      pyRstrip (joinLines (Q ++ [d])) = joinLines (Q ++ [pyRstrip d]) := by
  intro Q d hd
  rw [joinLines_snoc, joinLines_snoc]
  by_cases hQ : Q = []
  · simp [hQ]
  · rw [if_neg hQ, if_neg hQ]
    have h1 : joinLines Q ++ '\n' :: d = (joinLines Q ++ ['\n']) ++ d := by simp
    have h2 : joinLines Q ++ '\n' :: pyRstrip d =
        (joinLines Q ++ ['\n']) ++ pyRstrip d := by simp
    rw [h1, h2, pyRstrip_append_of_ne_nil _ _ hd]

/-! Small list lemmas for rows. -/

theorem getD_set_ne :
    ∀ (l : List Row) (i j : Nat) (x : Row), i ≠ j →
      (l.set i x).getD j default = l.getD j default := by
  intro l
  induction l with
  | nil => intro i j x _; simp
  | cons a t ih =>
    intro i j x hij
    cases i with
    | zero =>
      cases j with
      | zero => exact absurd rfl hij
      | succ j' => simp
    | succ i' =>
      cases j with
      | zero => simp
      | succ j' =>
        simp only [List.set_cons_succ, List.getD_cons_succ]
        exact ih i' j' x (by omega)

theorem getD_set_self :
    ∀ (l : List Row) (i : Nat) (x : Row), i < l.length →
      (l.set i x).getD i default = x := by
  intro l
  induction l with
  | nil => intro i x hi; simp at hi
  | cons a t ih =>
    intro i x hi
    cases i with
    | zero => simp
    | succ i' =>
      simp only [List.set_cons_succ, List.getD_cons_succ]
      exact ih i' x (by simpa using hi)

theorem set_getD_self :
    ∀ (l : List Row) (i : Nat), i < l.length → l.set i (l.getD i default) = l := by
  intro l
  induction l with
  | nil => intro i hi; simp at hi
  | cons a t ih =>
    intro i hi
    cases i with
    | zero => simp
    | succ i' =>
      simp only [List.getD_cons_succ, List.set_cons_succ, List.cons.injEq, true_and]
      exact ih i' (by simpa using hi)

theorem nodup_map_code_inj {l : List CsEntry}
    (h : (l.map (fun e => e.1)).Nodup) :
    ∀ x ∈ l, ∀ y ∈ l, x.1 = y.1 → x = y := by
  induction l with
  | nil => intro x hx; simp at hx
  | cons a t ih =>
    intro x hx y hy hxy
    have h' : (a.1 :: t.map (fun e => e.1)).Nodup := by simpa using h
    rcases List.nodup_cons.mp h' with ⟨hna, hnd⟩
    rcases List.mem_cons.mp hx with hxa | hxt
    · rcases List.mem_cons.mp hy with hya | hyt
      · rw [hxa, hya]
      · exfalso
        apply hna
        have hay : a.1 = y.1 := by rw [← hxa]; exact hxy
        rw [hay]
        exact List.mem_map_of_mem _ hyt
    · rcases List.mem_cons.mp hy with hya | hyt
      · exfalso
        apply hna
        have hax : a.1 = x.1 := by rw [← hya]; exact hxy.symm
        rw [hax]
        exact List.mem_map_of_mem _ hxt
      · exact ih hnd x hxt y hyt hxy

/-! Cleanliness and data-line facts about formatted rows. -/

theorem CleanRow_cells {r : Row} (h : CleanRow r) :
    CleanCell r.cs ∧ CleanCell r.title ∧ CleanCell r.meaning ∧
    CleanCell r.bcode ∧ CleanCell r.bname ∧ CleanCell r.status :=
  ⟨h.1.1, h.2.1.1, h.2.2.1.1, h.2.2.2.1.1, h.2.2.2.2.1.1, h.2.2.2.2.2.1⟩

theorem mem_joinCells :
    ∀ (cells : List Str) (c : Char), c ∈ joinCells cells →
      c ∈ S " | " ∨ ∃ cell ∈ cells, c ∈ cell := by
  intro cells
  induction cells with
  | nil => intro c hc; simp [joinCells] at hc
  | cons a t ih =>
    intro c hc
    cases t with
    | nil =>
      right
      exact ⟨a, by simp, by simpa [joinCells] using hc⟩
    | cons b t₂ =>
      rw [show joinCells (a :: b :: t₂) = a ++ S " | " ++ joinCells (b :: t₂)
        from rfl] at hc
      rcases List.mem_append.mp hc with hc | hc
      · rcases List.mem_append.mp hc with hc | hc
        · exact Or.inr ⟨a, by simp, hc⟩
        · exact Or.inl hc
      · rcases ih c hc with hc | ⟨cell, hcell, hc⟩
        · exact Or.inl hc
        · exact Or.inr ⟨cell, by simp [hcell], hc⟩

theorem format_row_noBreak {r : Row} (h : CleanRow r) :
    ∀ c ∈ format_row r, isLineBreak c = false := by
  have hopen : ∀ c ∈ S "| ", isLineBreak c = false := by decide
  have hsep : ∀ c ∈ S " | ", isLineBreak c = false := by decide
  have hclose : ∀ c ∈ S " |", isLineBreak c = false := by decide
  intro c hc
  rw [format_row] at hc
  rcases List.mem_append.mp hc with hc | hc
  · rcases List.mem_append.mp hc with hc | hc
    · exact hopen c hc
    · rcases mem_joinCells _ c hc with hc | ⟨cell, hcell, hc⟩
      · exact hsep c hc
      · simp only [List.mem_cons, List.not_mem_nil, or_false] at hcell
        rcases hcell with rfl | rfl | rfl | rfl | rfl | rfl
        · exact h.1.2 c hc
        · exact h.2.1.2 c hc
        · exact h.2.2.1.2 c hc
        · exact h.2.2.2.1.2 c hc
        · exact h.2.2.2.2.1.2 c hc
        · exact h.2.2.2.2.2.2 c hc
  · exact hclose c hc

theorem rowOfLine_TABLE_DIV : rowOfLine TABLE_DIV = dashRow := by decide

theorem format_row_isDataLine {r : Row}
    (hc : CleanCell r.cs ∧ CleanCell r.title ∧ CleanCell r.meaning ∧
      CleanCell r.bcode ∧ CleanCell r.bname ∧ CleanCell r.status)
    (hne : r ≠ dashRow) : isDataLine (format_row r) = true := by
  have hform : format_row r =
      ('|' :: (' ' :: joinCells [r.cs, r.title, r.meaning, r.bcode, r.bname,
        r.status] ++ [' '])) ++ ['|'] := by
    simp [format_row, S]
  have hstrip := pyStrip_format r
  have hdiv : (pyStrip (format_row r) == TABLE_DIV) = false := by
    rw [hstrip]
    by_contra hx
    have heq : format_row r = TABLE_DIV := by simpa using eq_true_of_ne_false hx
    have := (rowOfLine_format r hc).1
    rw [heq, rowOfLine_TABLE_DIV] at this
    exact hne this.symm
  have hstarts : startsWithS (S "|") (pyStrip (format_row r)) = true := by
    rw [hstrip, hform]
    simp [startsWithS, S]
  have hall : (pyStrip (format_row r)).all (· == '|') = false := by
    rw [hstrip, hform]
    refine List.all_eq_false.mpr ⟨' ', ?_, by decide⟩
    simp
  rw [isDataLine]
  simp only [hdiv, hstarts, hall]
  simp

theorem format_row_ne_nil (r : Row) : format_row r ≠ [] := by
  rw [format_row]
  simp [S]

theorem format_row_rstrip (r : Row) : pyRstrip (format_row r) = format_row r := by
  have hform : format_row r =
      ('|' :: (' ' :: joinCells [r.cs, r.title, r.meaning, r.bcode, r.bname,
        r.status] ++ [' '])) ++ ['|'] := by
    simp [format_row, S]
  rw [hform, pyRstrip_snoc_of_not (by decide)]

/-! Idempotence of `merge_rows` on its own output. -/

theorem getD_append_right' :
    ∀ (E A : List Row) (j : Nat), E.length ≤ j →
      (E ++ A).getD j default = A.getD (j - E.length) default := by
  intro E
  induction E with
  | nil => intro A j _; simp
  | cons r E ih =>
    intro A j hj
    cases j with
    | zero => simp at hj
    | succ j' =>
      simp only [List.cons_append, List.getD_cons_succ, List.length_cons]
      rw [ih A j' (by simpa using hj)]
      congr 1
      omega

theorem mergeStep_length_ge (idx : Str → Option Nat) (fill : Bool)
    (acc : List Row) (e : CsEntry) :
    acc.length ≤ (mergeStep idx fill acc e).length := by
  rw [mergeStep]
  cases idx e.1 with
  | some i => simp
  | none => cases fill <;> simp

theorem mergeFold_length_ge (idx : Str → Option Nat) (fill : Bool) :
    ∀ (cs : List CsEntry) (acc : List Row),
      acc.length ≤ (cs.foldl (mergeStep idx fill) acc).length := by
  intro cs
  induction cs with
  | nil => intro acc; simp
  | cons e cs ih =>
    intro acc
    calc acc.length ≤ (mergeStep idx fill acc e).length :=
          mergeStep_length_ge idx fill acc e
      _ ≤ _ := by simpa using ih (mergeStep idx fill acc e)

theorem foldl_eq_self {f : List Row → CsEntry → List Row} :
    ∀ (cs : List CsEntry) (M : List Row), (∀ e ∈ cs, f M e = M) →
      cs.foldl f M = M := by
  intro cs
  induction cs with
  | nil => intro M _; rfl
  | cons e cs ih =>
    intro M h
    simp only [List.foldl_cons, h e (by simp)]
    exact ih M (fun x hx => h x (by simp [hx]))

theorem mergeFold_untouched (rows : List Row) (fill : Bool) :
    ∀ (cs : List CsEntry) (acc : List Row) (i : Nat), i < acc.length →
      (∀ e ∈ cs, build_index rows e.1 ≠ some i) →
      (cs.foldl (mergeStep (build_index rows) fill) acc).getD i default =
        acc.getD i default := by
  intro cs
  induction cs with
  | nil => intro acc i _ _; rfl
  | cons e cs ih
    =>
    intro acc i hi hno
    simp only [List.foldl_cons]
    have hstep : (mergeStep (build_index rows) fill acc e).getD i default =
        acc.getD i default := by
      rw [mergeStep]
      cases hidx : build_index rows e.1 with
      | some j =>
        have hji : j ≠ i := by
          intro hji
          exact hno e (by simp) (by rw [hidx, hji])
        exact getD_set_ne acc j i _ hji
      | none =>
        cases fill with
        | true => rfl
        | false =>
          simp only [Bool.false_eq_true, if_false]
          exact List.getD_append acc _ default i hi
    rw [← hstep]
    exact ih (mergeStep (build_index rows) fill acc e) i
      (by calc i < acc.length := hi
            _ ≤ _ := mergeStep_length_ge _ _ _ _)
      (fun x hx => hno x (by simp [hx]))

theorem mergeFold_hit (rows : List Row) (fill : Bool) :
    ∀ (cs : List CsEntry) (acc : List Row) (e : CsEntry) (i : Nat),
      e ∈ cs → (cs.map (fun x => x.1)).Nodup →
      build_index rows e.1 = some i →
      acc.getD i default = rows.getD i default →
      i < acc.length →
      (cs.foldl (mergeStep (build_index rows) fill) acc).getD i default =
        updateRow (rows.getD i default) e := by
  intro cs
  induction cs with
  | nil => intro acc e i he; simp at he
  | cons e' cs ih =>
    intro acc e i he hnd hidx hacc hi
    have h' : (e'.1 :: cs.map (fun x => x.1)).Nodup := by simpa using hnd
    rcases List.nodup_cons.mp h' with ⟨hna, hndt⟩
    simp only [List.foldl_cons]
    by_cases hee : e' = e
    · subst hee
      have hstep1 : mergeStep (build_index rows) fill acc e' =
          acc.set i (updateRow (acc.getD i default) e') := by
        rw [mergeStep, hidx]
      have hstep : mergeStep (build_index rows) fill acc e' =
          acc.set i (updateRow (rows.getD i default) e') := by
        rw [hstep1, hacc]
      rw [hstep]
      have hkey := (build_index_some_spec hidx).2.1
      have huntouched : ∀ e'' ∈ cs, build_index rows e''.1 ≠ some i := by
        intro e'' he'' hbi
        have hkey'' := (build_index_some_spec hbi).2.1
        apply hna
        rw [show e'.1 = e''.1 from by rw [← hkey, ← hkey'']]
        exact List.mem_map_of_mem _ he''
      rw [mergeFold_untouched rows fill cs _ i (by simpa using hi) huntouched]
      exact getD_set_self acc i _ hi
    · have he2 : e ∈ cs := by
        rcases List.mem_cons.mp he with h | h
        · exact absurd h.symm hee
        · exact h
      have hstep : (mergeStep (build_index rows) fill acc e').getD i default =
          rows.getD i default := by
        rw [mergeStep]
        cases hidx' : build_index rows e'.1 with
        | some j =>
          have hji : j ≠ i := by
            intro hji
            subst hji
            have hk1 := (build_index_some_spec hidx').2.1
            have hk2 := (build_index_some_spec hidx).2.1
            apply hna
            rw [show e'.1 = e.1 from by rw [← hk1, ← hk2]]
            exact List.mem_map_of_mem _ he2
          rw [getD_set_ne acc j i _ hji]
          exact hacc
        | none =>
          cases fill with
          | true => exact hacc
          | false =>
            simp only [Bool.false_eq_true, if_false]
            rw [List.getD_append acc _ default i hi]
            exact hacc
      exact ih (mergeStep (build_index rows) fill acc e') e i he2 hndt hidx hstep
        (by calc i < acc.length := hi
              _ ≤ _ := mergeStep_length_ge _ _ _ _)

theorem updateRow_idem (old : Row) (e : CsEntry) :
    updateRow (updateRow old e) e = updateRow old e := by
  have imp : ∀ x y : Str, (if x = [] then y else x) = [] →
      y = if x = [] then y else x := by
    intro x y h
    by_cases hx : x = []
    · simp [hx]
    · rw [if_neg hx] at h
      exact absurd h hx
  simp only [updateRow, Row.mk.injEq]
  simp
  exact ⟨imp _ _, imp _ _, imp _ _⟩

theorem updateRow_entryRow (e : CsEntry) : updateRow (entryRow e) e = entryRow e := by
  simp [updateRow, entryRow]

theorem build_index_merge_some (rows : List Row) (cs : List CsEntry) (fill : Bool)
    (hclean : ∀ e ∈ cs, pyStrip e.1 = e.1)
    {c : Str} {i : Nat} (h : build_index rows c = some i) :
    build_index (merge_rows rows cs fill) c = some i := by
  obtain ⟨E', _, hrel, heq⟩ := merge_rows_shape rows cs fill
  rw [heq]
  have hA : ∀ a ∈ appendedRows rows cs fill, pyStrip a.cs ≠ c := by
    intro a ha
    rw [appendedRows] at ha
    cases fill with
    | true => simp at ha
    | false =>
      simp only [Bool.false_eq_true, if_false] at ha
      obtain ⟨e'', he''f, rfl⟩ := List.mem_map.mp ha
      have he''cs : e'' ∈ cs := (List.mem_filter.mp he''f).1
      have hmiss : (build_index rows e''.1).isNone = true := (List.mem_filter.mp he''f).2
      rw [show (entryRow e'').cs = e''.1 from rfl, hclean e'' he''cs]
      intro hec
      rw [hec] at hmiss
      rw [h] at hmiss
      simp at hmiss
  rw [build_index_append_of_not _ _ _ hA]
  have hmap : E'.map (fun r => pyStrip r.cs) = rows.map (fun r => pyStrip r.cs) := by
    have h1 := forall₂_rel_map_cs hrel
    have h2 := congrArg (List.map pyStrip) h1
    simpa [List.map_map, Function.comp] using h2
  rw [show build_index E' c = biAux 0 E' c from rfl, biAux_congr E' rows 0 c hmap]
  exact h

theorem build_index_merge_none_fill (rows : List Row) (cs : List CsEntry)
    {c : Str} (h : build_index rows c = none) :
    build_index (merge_rows rows cs true) c = none := by
  obtain ⟨E', _, hrel, heq⟩ := merge_rows_shape rows cs true
  rw [heq, show appendedRows rows cs true = [] from rfl, List.append_nil]
  have hmap : E'.map (fun r => pyStrip r.cs) = rows.map (fun r => pyStrip r.cs) := by
    have h1 := forall₂_rel_map_cs hrel
    have h2 := congrArg (List.map pyStrip) h1
    simpa [List.map_map, Function.comp] using h2
  rw [show build_index E' c = biAux 0 E' c from rfl, biAux_congr E' rows 0 c hmap]
  exact h

theorem merge_missing_entry_row (rows : List Row) (cs : List CsEntry)
    (hclean : ∀ e ∈ cs, pyStrip e.1 = e.1 ∧ e.1 ≠ [])
    (hnd : (cs.map (fun e => e.1)).Nodup)
    {e : CsEntry} (he : e ∈ cs) (hmiss : build_index rows e.1 = none) :
    ∃ j, build_index (merge_rows rows cs false) e.1 = some j ∧
      j < (merge_rows rows cs false).length ∧
      (merge_rows rows cs false).getD j default = entryRow e := by
  obtain ⟨E', hlen, hrel, heq⟩ := merge_rows_shape rows cs false
  have hAdef : appendedRows rows cs false =
      (cs.filter (fun x => (build_index rows x.1).isNone)).map entryRow := by
    rw [appendedRows, if_neg (by simp)]
  have hmemA : entryRow e ∈ appendedRows rows cs false := by
    rw [hAdef]
    exact List.mem_map_of_mem _ (List.mem_filter.mpr ⟨he, by simp [hmiss]⟩)
  obtain ⟨p, hp, hpe⟩ := List.mem_iff_getElem.mp hmemA
  have hgetp : (appendedRows rows cs false).getD p default = entryRow e := by
    rw [List.getD_eq_getElem _ _ hp, hpe]
  have hkeyg : pyStrip (((E' ++ appendedRows rows cs false).getD
      (E'.length + p) default)).cs = e.1 := by
    rw [getD_append_right' E' _ _ (by omega),
      show E'.length + p - E'.length = p from by omega, hgetp,
      show (entryRow e).cs = e.1 from rfl]
    exact (hclean e he).1
  have hbound : E'.length + p < (E' ++ appendedRows rows cs false).length := by
    simp only [List.length_append]
    omega
  have hne := build_index_ne_none_of_key hbound hkeyg (hclean e he).2
  rw [heq]
  cases hj : build_index (E' ++ appendedRows rows cs false) e.1 with
  | none => exact absurd hj hne
  | some j =>
    obtain ⟨hjlt, hkeyj, _⟩ := build_index_some_spec hj
    refine ⟨j, rfl, hjlt, ?_⟩
    have hjE : ¬ j < E'.length := by
      intro hjE
      have hgetDj : (E' ++ appendedRows rows cs false).getD j default =
          E'.getD j default := List.getD_append _ _ _ _ hjE
      have hcs_eq : (E'.getD j default).cs = (rows.getD j default).cs :=
        (forall₂_getD hrel j (by omega)).1
      have hkeyrows : pyStrip ((rows.getD j default)).cs = e.1 := by
        rw [← hcs_eq]
        rw [hgetDj] at hkeyj
        exact hkeyj
      exact build_index_ne_none_of_key (show j < rows.length from by omega)
        hkeyrows (hclean e he).2 hmiss
    have hq : (E' ++ appendedRows rows cs false).getD j default =
        (appendedRows rows cs false).getD (j - E'.length) default :=
      getD_append_right' _ _ _ (by omega)
    have hqlt : j - E'.length < (appendedRows rows cs false).length := by
      simp only [List.length_append] at hjlt
      omega
    have hmemq : (appendedRows rows cs false).getD (j - E'.length) default ∈
        appendedRows rows cs false := by
      rw [List.getD_eq_getElem _ _ hqlt]
      exact List.getElem_mem hqlt
    rw [hAdef] at hmemq
    obtain ⟨e'', he''f, he''eq⟩ := List.mem_map.mp hmemq
    have he''cs : e'' ∈ cs := (List.mem_filter.mp he''f).1
    have hkeyq : pyStrip ((appendedRows rows cs false).getD
        (j - E'.length) default).cs = e.1 := by
      rw [← hq]
      exact hkeyj
    rw [hAdef] at hkeyq
    rw [← he''eq, show (entryRow e'').cs = e''.1 from rfl,
      (hclean e'' he''cs).1] at hkeyq
    have he''e : e'' = e := nodup_map_code_inj hnd e'' he''cs e he hkeyq
    rw [hq, hAdef, ← he''eq, he''e]

theorem merge_rows_idem (rows : List Row) (cs : List CsEntry) (fill : Bool)
    (hclean : ∀ e ∈ cs, pyStrip e.1 = e.1 ∧ e.1 ≠ [])
    (hnd : (cs.map (fun e => e.1)).Nodup) :
    merge_rows (merge_rows rows cs fill) cs fill = merge_rows rows cs fill := by
  rw [show merge_rows (merge_rows rows cs fill) cs fill =
    cs.foldl (mergeStep (build_index (merge_rows rows cs fill)) fill)
      (merge_rows rows cs fill) from rfl]
  apply foldl_eq_self
  intro e he
  cases hidx : build_index rows e.1 with
  | some i =>
    have hidx2 : build_index (merge_rows rows cs fill) e.1 = some i :=
      build_index_merge_some rows cs fill (fun e' he' => (hclean e' he').1) hidx
    have hilt : i < rows.length := (build_index_some_spec hidx).1
    have hiltM : i < (merge_rows rows cs fill).length := by
      have := mergeFold_length_ge (build_index rows) fill cs rows
      rw [show cs.foldl (mergeStep (build_index rows) fill) rows =
        merge_rows rows cs fill from rfl] at this
      omega
    have hhit : (merge_rows rows cs fill).getD i default =
        updateRow (rows.getD i default) e := by
      rw [show merge_rows rows cs fill =
        cs.foldl (mergeStep (build_index rows) fill) rows from rfl]
      exact mergeFold_hit rows fill cs rows e i he hnd hidx rfl hilt
    have hstep : mergeStep (build_index (merge_rows rows cs fill)) fill
        (merge_rows rows cs fill) e =
        (merge_rows rows cs fill).set i
          (updateRow ((merge_rows rows cs fill).getD i default) e) := by
      rw [mergeStep, hidx2]
    rw [hstep, hhit, updateRow_idem, ← hhit]
    exact set_getD_self _ i hiltM
  | none =>
    cases fill with
    | true =>
      have hidx2 : build_index (merge_rows rows cs true) e.1 = none :=
        build_index_merge_none_fill rows cs hidx
      rw [mergeStep, hidx2]
      simp
    | false =>
      obtain ⟨j, hj, hjlt, hrow⟩ := merge_missing_entry_row rows cs hclean hnd he hidx
      have hstep : mergeStep (build_index (merge_rows rows cs false)) false
          (merge_rows rows cs false) e =
          (merge_rows rows cs false).set j
            (updateRow ((merge_rows rows cs false).getD j default) e) := by
        rw [mergeStep, hj]
      rw [hstep, hrow, updateRow_entryRow, ← hrow]
      exact set_getD_self _ j hjlt

/-! Cleanliness of parsed rows and merged rows. -/

theorem mem_stripPipes_sub {c : Char} {s : Str} (h : c ∈ stripPipes s) : c ∈ s := by
  rw [stripPipes] at h
  rw [List.mem_reverse] at h
  have h2 := (List.dropWhile_sublist
    (l := (s.dropWhile (· == '|')).reverse) (· == '|')).subset h
  rw [List.mem_reverse] at h2
  exact (List.dropWhile_sublist (l := s) (· == '|')).subset h2

theorem mem_cellsOfLine_sub {line : Str} {cell : Str} {c : Char}
    (hcell : cell ∈ cellsOfLine line) (hc : c ∈ cell) : c ∈ line := by
  rw [cellsOfLine] at hcell
  obtain ⟨seg, hseg, rfl⟩ := List.mem_map.mp hcell
  exact mem_pyStrip_sub (mem_stripPipes_sub
    (mem_pySplit_sub '|' _ seg c hseg (mem_pyStrip_sub hc)))

theorem getD_cell_sub {cells : List Str} {base : Str}
    (hsub : ∀ cell ∈ cells, ∀ c ∈ cell, c ∈ base) (k : Nat) :
    ∀ c ∈ cells.getD k [], c ∈ base := by
  by_cases hk : k < cells.length
  · rw [List.getD_eq_getElem cells [] hk]
    exact hsub _ (List.getElem_mem hk)
  · rw [List.getD_eq_default cells [] (by omega)]
    simp

theorem rowOfLine_cleanRow {line : Str}
    (hbreak : ∀ c ∈ line, isLineBreak c = false) : CleanRow (rowOfLine line) := by
  have hclean := cellsOfLine_clean line
  have hsub : ∀ cell ∈ cellsOfLine line, ∀ c ∈ cell, c ∈ line :=
    fun cell hcell c hc => mem_cellsOfLine_sub hcell hc
  have hfield : ∀ k : Nat, CleanCell ((cellsOfLine line).getD k []) ∧
      BreakFree ((cellsOfLine line).getD k []) := by
    intro k
    refine ⟨getD_cell_clean hclean k, ?_⟩
    intro c hc
    exact hbreak c (getD_cell_sub hsub k c hc)
  exact ⟨hfield 0, hfield 1, hfield 2, hfield 3, hfield 4, hfield 5⟩

theorem CleanRow_nil_cell : CleanCell ([] : Str) ∧ BreakFree ([] : Str) :=
  ⟨CleanCell_nil, by intro c hc; simp at hc⟩

theorem entryRow_cleanRow {e : CsEntry} (h : CleanEntry e) : CleanRow (entryRow e) :=
  ⟨h.2.1, h.2.2.1, h.2.2.2, CleanRow_nil_cell, CleanRow_nil_cell, CleanRow_nil_cell⟩

theorem merge_rows_clean (existing : List Row) (cs : List CsEntry) (fill : Bool)
    (hex : ∀ r ∈ existing, CleanRow r) (hcs : ∀ e ∈ cs, CleanEntry e) :
    ∀ r ∈ merge_rows existing cs fill, CleanRow r := by
  obtain ⟨E', hlen, hrel, heq⟩ := merge_rows_shape existing cs fill
  intro r hr
  rw [heq] at hr
  rcases List.mem_append.mp hr with hr | hr
  · obtain ⟨i, hi, hie⟩ := List.mem_iff_getElem.mp hr
    have hia : i < existing.length := by omega
    have hpair := forall₂_getD hrel i hia
    obtain ⟨hcse, hbc, hbn, hst, htit, hmean⟩ := hpair
    have hgetE : E'.getD i default = r := by
      rw [List.getD_eq_getElem E' default hi, hie]
    have ha := hex (existing.getD i default) (by
      rw [List.getD_eq_getElem existing default hia]
      exact List.getElem_mem hia)
    rw [← hgetE]
    refine ⟨?_, ?_, ?_, ?_, ?_, ?_⟩
    · rw [show (E'.getD i default).cs = (existing.getD i default).cs from hcse]
      exact ha.1
    · rcases htit with htit | ⟨_, e, hecs, htit⟩
      · rw [show (E'.getD i default).title = (existing.getD i default).title from htit]
        exact ha.2.1
      · rw [htit]
        exact (hcs e hecs).2.2.1
    · rcases hmean with hm | ⟨_, e, hecs, hm⟩
      · rw [show (E'.getD i default).meaning = (existing.getD i default).meaning from hm]
        exact ha.2.2.1
      · rw [hm]
        exact (hcs e hecs).2.2.2
    · rw [show (E'.getD i default).bcode = (existing.getD i default).bcode from hbc]
      exact ha.2.2.2.1
    · rw [show (E'.getD i default).bname = (existing.getD i default).bname from hbn]
      exact ha.2.2.2.2.1
    · rw [show (E'.getD i default).status = (existing.getD i default).status from hst]
      exact ha.2.2.2.2.2
  · rw [appendedRows] at hr
    cases fill with
    | true => simp at hr
    | false =>
      simp only [Bool.false_eq_true, if_false] at hr
      obtain ⟨e'', he''f, rfl⟩ := List.mem_map.mp hr
      exact entryRow_cleanRow (hcs e'' (List.mem_filter.mp he''f).1)

/-! Reparsing the reconstructed document. -/

theorem run_output_reparse (P : List Str) (h : Str) (D' : List Str)
    (merged : List Row)
    (hP : ∀ l ∈ P, pyStrip l ≠ TABLE_HEADER)
    (hh : pyStrip h = TABLE_HEADER)
    (hD : ∀ l ∈ D', pyStrip l = TABLE_DIV)
    (hbP : ∀ l ∈ P, ∀ c ∈ l, isLineBreak c = false)
    (hbh : ∀ c ∈ h, isLineBreak c = false)
    (hbD : ∀ l ∈ D', ∀ c ∈ l, isLineBreak c = false)
    (hmc : ∀ r ∈ merged, CleanRow r)
    (hmd : ∀ r ∈ merged, r ≠ dashRow) :
    parse_semantic_table
        (joinLines (P ++ h :: (D' ++ merged.map format_row)) ++ ['\n']) =
      (P ++ h :: D', merged) := by
  have hbreak_all : ∀ l ∈ P ++ h :: (D' ++ merged.map format_row),
      ∀ c ∈ l, isLineBreak c = false := by
    intro l hl
    rcases List.mem_append.mp hl with hl | hl
    · exact hbP l hl
    · rcases List.mem_cons.mp hl with rfl | hl
      · exact hbh
      · rcases List.mem_append.mp hl with hl | hl
        · exact hbD l hl
        · obtain ⟨r, hrm, rfl⟩ := List.mem_map.mp hl
          exact format_row_noBreak (hmc r hrm)
  rw [parse_semantic_table, pySplitlines_join _ (by simp) hbreak_all,
    parseAux_pass P _ hP, parseAux_header h _ hh, parseAux_divs D' _ hD]
  have hdata := parseAux_data (merged.map format_row) [] (by
    intro l hl
    obtain ⟨r, hrm, rfl⟩ := List.mem_map.mp hl
    exact format_row_isDataLine (CleanRow_cells (hmc r hrm)) (hmd r hrm))
  rw [List.append_nil] at hdata
  rw [hdata]
  have hmaps : (merged.map format_row).map rowOfLine = merged := by
    rw [List.map_map]
    calc merged.map (rowOfLine ∘ format_row)
        = merged.map id := List.map_eq_map_iff.mpr
          (fun r hrm => (rowOfLine_format r (CleanRow_cells (hmc r hrm))).1)
      _ = merged := List.map_id merged
  rw [hmaps]
  simp [parseAux_nil]

/-! Reconstruction corollaries used by the pipeline theorems. -/

theorem reconLines_last_div (P : List Str) (h : Str) (D' : List Str)
    (merged : List Row) (hh : pyStrip h = TABLE_HEADER)
    (hD : ∀ l ∈ D', pyStrip l = TABLE_DIV) (hne : D' ≠ []) :
    reconLines (P ++ h :: D') merged =
      P ++ h :: (D' ++ merged.map format_row) := by
  obtain ⟨D₀, d, hD'eq⟩ := (List.eq_nil_or_concat D').resolve_left hne
  rw [List.concat_eq_append] at hD'eq
  subst hD'eq
  have hshape : P ++ h :: (D₀ ++ [d]) = (P ++ h :: D₀) ++ [d] := by simp
  have hlast : (P ++ h :: (D₀ ++ [d])).getLast? = some d := by
    rw [hshape]
    exact List.getLast?_concat _
  rw [reconLines_of_header _ _ h (by simp) hh, hlast]
  show (if pyStrip d = TABLE_DIV then P ++ h :: (D₀ ++ [d])
    else P ++ h :: (D₀ ++ [d]) ++ [TABLE_DIV]) ++ merged.map format_row = _
  rw [if_pos (hD d (by simp))]
  simp

theorem reconLines_last_header (P : List Str) (h : Str) (merged : List Row)
    (hh : pyStrip h = TABLE_HEADER) :
    reconLines (P ++ [h]) merged =
      P ++ h :: ([TABLE_DIV] ++ merged.map format_row) := by
  have hlast : (P ++ [h]).getLast? = some h := List.getLast?_concat _
  rw [reconLines_of_header _ _ h (by simp) hh, hlast]
  show (if pyStrip h = TABLE_DIV then P ++ [h]
    else P ++ [h] ++ [TABLE_DIV]) ++ merged.map format_row = _
  rw [if_neg (by rw [hh]; decide)]
  simp

theorem pyRstrip_joinLines_fix {A : List Str} {x : Str} (hx : pyRstrip x = x)
    (hxne : x ≠ []) :
    pyRstrip (joinLines (A ++ [x])) = joinLines (A ++ [x]) := by
  rw [pyRstrip_joinLines_last A x (by rw [hx]; exact hxne), hx]

theorem TABLE_DIV_strip : pyStrip TABLE_DIV = TABLE_DIV := by decide

theorem TABLE_DIV_rstrip : pyRstrip TABLE_DIV = TABLE_DIV := by decide

theorem TABLE_DIV_noBreak : ∀ c ∈ TABLE_DIV, isLineBreak c = false := by decide

theorem run_pipeline_normal_doc (cs_all : List CsEntry) (sw rng : Option Str)
    (so : Bool) (inc exc : List Str) (fill : Bool)
    (P : List Str) (h : Str) (D' : List Str) (merged : List Row)
    (hP : ∀ l ∈ P, pyStrip l ≠ TABLE_HEADER)
    (hh : pyStrip h = TABLE_HEADER)
    (hD : ∀ l ∈ D', pyStrip l = TABLE_DIV)
    (hne : D' ≠ [])
    (hbP : ∀ l ∈ P, ∀ c ∈ l, isLineBreak c = false)
    (hbh : ∀ c ∈ h, isLineBreak c = false)
    (hbD : ∀ l ∈ D', ∀ c ∈ l, isLineBreak c = false)
    (hmc : ∀ r ∈ merged, CleanRow r)
    (hmd : ∀ r ∈ merged, r ≠ dashRow)
    (hmerge2 : merge_rows merged (filter_cs_rows cs_all sw rng so inc exc) fill =
      merged) :
    run_pipeline (joinLines (P ++ h :: (D' ++ merged.map format_row)) ++ ['\n'])
        cs_all sw rng so inc exc fill =
      pyRstrip (joinLines (P ++ h :: (D' ++ merged.map format_row))) ++ ['\n'] := by
  simp only [run_pipeline]
  rw [run_output_reparse P h D' merged hP hh hD hbP hbh hbD hmc hmd]
  show reconstruct_doc (P ++ h :: D')
    (merge_rows merged (filter_cs_rows cs_all sw rng so inc exc) fill) = _
  rw [hmerge2, reconstruct_doc, reconLines_last_div P h D' merged hh hD hne]

/-! Claim C3. -/

/-- Claim C3 amended: the pipeline is idempotent on documents whose (unique)
table header is followed only by divider lines and then data lines running to
the end of the document, provided the diagnostic entries are clean extractor
output (non-empty trimmed codes, no delimiter or line-break characters) with
pairwise distinct codes, and no merged row consists of six `---` cells; the
second run then reports "no changes" and performs no write. -/
theorem pipeline_idempotent (doc : Str) (cs_all : List CsEntry)
    (sw rng : Option Str) (so : Bool) (inc exc : List Str) (fill : Bool)
    (P D R : List Str) (h : Str)
    (hsplit : pySplitlines doc = P ++ h :: (D ++ R))
    (hP : ∀ l ∈ P, pyStrip l ≠ TABLE_HEADER)
    (hh : pyStrip h = TABLE_HEADER)
    (hD : ∀ l ∈ D, pyStrip l = TABLE_DIV)
    (hR : ∀ l ∈ R, isDataLine l = true)
    (hclean : ∀ e ∈ cs_all, CleanEntry e)
    (hnd : (cs_all.map (fun e => e.1)).Nodup)
    (hdash : ∀ r ∈ merge_rows (parse_semantic_table doc).2
        (filter_cs_rows cs_all sw rng so inc exc) fill, r ≠ dashRow) :
    run_pipeline (run_pipeline doc cs_all sw rng so inc exc fill)
        cs_all sw rng so inc exc fill =
      run_pipeline doc cs_all sw rng so inc exc fill ∧
    reports_no_changes (run_pipeline doc cs_all sw rng so inc exc fill)
        cs_all sw rng so inc exc fill = true := by
  have hbreak_doc := pySplitlines_noBreak doc
  rw [hsplit] at hbreak_doc
  have hbP : ∀ l ∈ P, ∀ c ∈ l, isLineBreak c = false :=
    fun l hl => hbreak_doc l (by simp [hl])
  have hbh : ∀ c ∈ h, isLineBreak c = false := hbreak_doc h (by simp)
  have hbD : ∀ l ∈ D, ∀ c ∈ l, isLineBreak c = false :=
    fun l hl => hbreak_doc l (by simp [hl])
  have hbR : ∀ l ∈ R, ∀ c ∈ l, isLineBreak c = false :=
    fun l hl => hbreak_doc l (by simp [hl])
  have hparse1 : parse_semantic_table doc = (P ++ h :: D, R.map rowOfLine) := by
    rw [parse_semantic_table, hsplit, parseAux_pass P _ hP,
      parseAux_header h _ hh, parseAux_divs D _ hD]
    have hdata := parseAux_data R [] hR
    rw [List.append_nil] at hdata
    rw [hdata]
    simp [parseAux_nil]
  set CS := filter_cs_rows cs_all sw rng so inc exc with hCS
  have hcs_clean : ∀ e ∈ CS, CleanEntry e := by
    intro e he
    rw [hCS, filter_cs_rows] at he
    exact hclean e (List.mem_filter.mp he).1
  have hcode_clean : ∀ e ∈ CS, pyStrip e.1 = e.1 ∧ e.1 ≠ [] :=
    fun e he => ⟨(hcs_clean e he).2.1.1.1, (hcs_clean e he).1⟩
  have hcs_nd : (CS.map (fun e => e.1)).Nodup := by
    rw [hCS, filter_cs_rows]
    exact List.Nodup.sublist (List.Sublist.map _ (List.filter_sublist _)) hnd
  have hrows1_clean : ∀ r ∈ R.map rowOfLine, CleanRow r := by
    intro r hr
    obtain ⟨l, hl, rfl⟩ := List.mem_map.mp hr
    exact rowOfLine_cleanRow (hbR l hl)
  set MER := merge_rows (R.map rowOfLine) CS fill with hMER
  have hmc : ∀ r ∈ MER, CleanRow r := by
    rw [hMER]
    exact merge_rows_clean _ _ _ hrows1_clean hcs_clean
  have hmd : ∀ r ∈ MER, r ≠ dashRow := by
    intro r hr
    apply hdash r
    rw [hparse1]
    exact hr
  have hmerge2 : merge_rows MER CS fill = MER := by
    rw [hMER]
    exact merge_rows_idem (R.map rowOfLine) CS fill hcode_clean hcs_nd
  have hrun1 : run_pipeline doc cs_all sw rng so inc exc fill =
      reconstruct_doc (P ++ h :: D) MER := by
    simp only [run_pipeline]
    rw [hparse1]
  have main : run_pipeline (run_pipeline doc cs_all sw rng so inc exc fill)
      cs_all sw rng so inc exc fill =
      run_pipeline doc cs_all sw rng so inc exc fill := by
    rw [hrun1]
    rcases List.eq_nil_or_concat D with hD0 | ⟨D₀, d, hDsplit⟩
    · -- no divider in the prefix: the reconstruction inserts one
      subst hD0
      have hD' : ∀ l ∈ [TABLE_DIV], pyStrip l = TABLE_DIV := by
        intro l hl
        rw [List.mem_singleton.mp hl]
        exact TABLE_DIV_strip
      have hbD' : ∀ l ∈ [TABLE_DIV], ∀ c ∈ l, isLineBreak c = false := by
        intro l hl
        rw [List.mem_singleton.mp hl]
        exact TABLE_DIV_noBreak
      have hfix : pyRstrip (joinLines (P ++ h :: ([TABLE_DIV] ++ MER.map format_row))) =
          joinLines (P ++ h :: ([TABLE_DIV] ++ MER.map format_row)) := by
        rcases List.eq_nil_or_concat MER with hm0 | ⟨M₀, rl, hmsplit⟩
        · rw [hm0]
          have hshape : P ++ h :: ([TABLE_DIV] ++ List.map format_row []) =
              (P ++ [h]) ++ [TABLE_DIV] := by simp
          rw [hshape]
          exact pyRstrip_joinLines_fix TABLE_DIV_rstrip (by decide)
        · rw [List.concat_eq_append] at hmsplit
          rw [hmsplit]
          have hshape : P ++ h :: ([TABLE_DIV] ++ (M₀ ++ [rl]).map format_row) =
              (P ++ h :: ([TABLE_DIV] ++ M₀.map format_row)) ++ [format_row rl] := by
            simp
          rw [hshape]
          exact pyRstrip_joinLines_fix (format_row_rstrip rl) (format_row_ne_nil rl)
      have hdoc2 : reconstruct_doc (P ++ [h]) MER =
          joinLines (P ++ h :: ([TABLE_DIV] ++ MER.map format_row)) ++ ['\n'] := by
        rw [reconstruct_doc, reconLines_last_header P h MER hh, hfix]
      rw [hdoc2, run_pipeline_normal_doc cs_all sw rng so inc exc fill P h
        [TABLE_DIV] MER hP hh hD' (by simp) hbP hbh hbD' hmc hmd hmerge2, hfix,
        ← hdoc2]
    · -- the prefix already ends with a divider line
      rw [List.concat_eq_append] at hDsplit
      subst hDsplit
      have hd : pyStrip d = TABLE_DIV := hD d (by simp)
      rcases List.eq_nil_or_concat MER with hm0 | ⟨M₀, rl, hmsplit⟩
      · -- no merged rows: only the divider's own trailing whitespace moves
        have hrd : pyRstrip d ≠ [] := pyStrip_ne_nil_rstrip (by rw [hd]; decide)
        have hD'' : ∀ l ∈ D₀ ++ [pyRstrip d], pyStrip l = TABLE_DIV := by
          intro l hl
          rcases List.mem_append.mp hl with hl | hl
          · exact hD l (by simp [hl])
          · rw [List.mem_singleton.mp hl, pyStrip_pyRstrip]
            exact hd
        have hbD'' : ∀ l ∈ D₀ ++ [pyRstrip d], ∀ c ∈ l, isLineBreak c = false := by
          intro l hl
          rcases List.mem_append.mp hl with hl | hl
          · exact hbD l (by simp [hl])
          · rw [List.mem_singleton.mp hl]
            intro c hc
            exact hbD d (by simp) c (mem_pyRstrip_sub hc)
        have hmnil : ∀ r ∈ ([] : List Row), CleanRow r := by intro r hr; simp at hr
        have hmdnil : ∀ r ∈ ([] : List Row), r ≠ dashRow := by intro r hr; simp at hr
        have hmerge2' : merge_rows [] CS fill = [] := by
          rw [← hm0]
          exact hmerge2
        have hdoc2 : reconstruct_doc (P ++ h :: (D₀ ++ [d])) MER =
            joinLines (P ++ h :: ((D₀ ++ [pyRstrip d]) ++
              List.map format_row [])) ++ ['\n'] := by
          rw [reconstruct_doc,
            reconLines_last_div P h (D₀ ++ [d]) MER hh hD (by simp), hm0]
          have hshape1 : P ++ h :: ((D₀ ++ [d]) ++ List.map format_row []) =
              (P ++ h :: D₀) ++ [d] := by simp
          have hshape2 : P ++ h :: ((D₀ ++ [pyRstrip d]) ++ List.map format_row []) =
              (P ++ h :: D₀) ++ [pyRstrip d] := by simp
          rw [hshape1, hshape2, pyRstrip_joinLines_last _ _ hrd]
        have hfix2 : pyRstrip (joinLines (P ++ h :: ((D₀ ++ [pyRstrip d]) ++
            List.map format_row []))) =
            joinLines (P ++ h :: ((D₀ ++ [pyRstrip d]) ++ List.map format_row [])) := by
          have hshape2 : P ++ h :: ((D₀ ++ [pyRstrip d]) ++ List.map format_row []) =
              (P ++ h :: D₀) ++ [pyRstrip d] := by simp
          rw [hshape2]
          exact pyRstrip_joinLines_fix (pyRstrip_idem d) hrd
        rw [hdoc2, run_pipeline_normal_doc cs_all sw rng so inc exc fill P h
          (D₀ ++ [pyRstrip d]) [] hP hh hD'' (by simp) hbP hbh hbD'' hmnil hmdnil
          hmerge2', hfix2, ← hdoc2]
      · -- merged rows present: the document ends with a formatted row
        rw [List.concat_eq_append] at hmsplit
        have hfix : pyRstrip (joinLines (P ++ h :: ((D₀ ++ [d]) ++
            MER.map format_row))) =
            joinLines (P ++ h :: ((D₀ ++ [d]) ++ MER.map format_row)) := by
          rw [hmsplit]
          have hshape : P ++ h :: ((D₀ ++ [d]) ++ (M₀ ++ [rl]).map format_row) =
              (P ++ h :: ((D₀ ++ [d]) ++ M₀.map format_row)) ++ [format_row rl] := by
            simp
          rw [hshape]
          exact pyRstrip_joinLines_fix (format_row_rstrip rl) (format_row_ne_nil rl)
        have hdoc2 : reconstruct_doc (P ++ h :: (D₀ ++ [d])) MER =
            joinLines (P ++ h :: ((D₀ ++ [d]) ++ MER.map format_row)) ++ ['\n'] := by
          rw [reconstruct_doc,
            reconLines_last_div P h (D₀ ++ [d]) MER hh hD (by simp), hfix]
        rw [hdoc2, run_pipeline_normal_doc cs_all sw rng so inc exc fill P h
          (D₀ ++ [d]) MER hP hh hD (by simp) hbP hbh hbD hmc hmd hmerge2, hfix,
          ← hdoc2]
  refine ⟨main, ?_⟩
  rw [reports_no_changes, main]
  simp

/-- Claim C3 counterexample: on a document whose table is followed by further
prose, the first run appends the new table material at the very end of the
document, after the trailing prose; the second run does not recognise those
appended lines as table rows (the table already ended at the blank line), so it
appends a second copy: the output is not byte-identical and the second run does
not report "no changes". -/
theorem pipeline_not_idempotent :
    run_pipeline
        (run_pipeline
          (S "| CS Code | Title | Meaning | B# Code | B# Name | Status |\n| --- | --- | --- | --- | --- | --- |\n\ntail")
          [(S "CS0100", S "T", S "M")] none none false [] [] false)
        [(S "CS0100", S "T", S "M")] none none false [] [] false ≠
      run_pipeline
        (S "| CS Code | Title | Meaning | B# Code | B# Name | Status |\n| --- | --- | --- | --- | --- | --- |\n\ntail")
        [(S "CS0100", S "T", S "M")] none none false [] [] false ∧
    reports_no_changes
        (run_pipeline
          (S "| CS Code | Title | Meaning | B# Code | B# Name | Status |\n| --- | --- | --- | --- | --- | --- |\n\ntail")
          [(S "CS0100", S "T", S "M")] none none false [] [] false)
        [(S "CS0100", S "T", S "M")] none none false [] [] false = false := by
  refine ⟨by decide, by decide⟩

/-- Witness for `pipeline_idempotent` at a concrete well-formed document. -/
theorem pipeline_idempotent_witness :
    run_pipeline
        (run_pipeline
          (S "intro\n| CS Code | Title | Meaning | B# Code | B# Name | Status |\n| --- | --- | --- | --- | --- | --- |\n| CS0001 | a | b | c | d | e |")
          [(S "CS0002", S "T", S "M")] none none false [] [] false)
        [(S "CS0002", S "T", S "M")] none none false [] [] false =
      run_pipeline
        (S "intro\n| CS Code | Title | Meaning | B# Code | B# Name | Status |\n| --- | --- | --- | --- | --- | --- |\n| CS0001 | a | b | c | d | e |")
        [(S "CS0002", S "T", S "M")] none none false [] [] false ∧
    reports_no_changes
        (run_pipeline
          (S "intro\n| CS Code | Title | Meaning | B# Code | B# Name | Status |\n| --- | --- | --- | --- | --- | --- |\n| CS0001 | a | b | c | d | e |")
          [(S "CS0002", S "T", S "M")] none none false [] [] false)
        [(S "CS0002", S "T", S "M")] none none false [] [] false = true :=
  pipeline_idempotent
    (S "intro\n| CS Code | Title | Meaning | B# Code | B# Name | Status |\n| --- | --- | --- | --- | --- | --- |\n| CS0001 | a | b | c | d | e |")
    [(S "CS0002", S "T", S "M")] none none false [] [] false
    [S "intro"] [TABLE_DIV] [S "| CS0001 | a | b | c | d | e |"] TABLE_HEADER
    (by decide) (by decide) (by decide) (by decide) (by decide)
    (by
      simp only [CleanEntry, CleanCell, BreakFree, List.mem_singleton]
      rintro e rfl
      refine ⟨by decide, ⟨by decide, by decide⟩, ⟨by decide, by decide⟩,
        by decide, by decide⟩)
    (by decide) (by decide)
